import Mathlib

/-!
Verification development for the dominator-tree computation of
`graph/path/control_flow_lt.go` (the Lengauer–Tarjan algorithm).

The Go code is embedded shallowly:

* A `graph.Node` carries no information other than its stable `int64`
  identity, so nodes are modelled as `Int` values (their IDs).
* A `graph.Directed` accessor is modelled by `DiGraph`: the successor
  function `succ` corresponds to `g.From`, and `verts` is a finite list
  of the graph's vertices used only to size the recursion fuel.
* The pointer-linked `ltNode` records are placed in an arena (a list
  indexed by DFS preorder rank); every Go pointer between records is
  replaced by the record's arena index, which coincides with the vertex
  number of the Lengauer–Tarjan algorithm.  Pointer aliasing in Go is
  index equality here, so the translation preserves aliasing behaviour.
* The recursive procedures (`dfs` and `compress`) take explicit fuel;
  running out of fuel yields `Except.error ltFuelMsg`.  Go panics and
  nil-pointer dereferences are modelled by `Except.error` with other
  messages, so a `.ok` result corresponds exactly to a normally
  terminating Go run.
-/

/-- The directed-graph accessor consumed by `Dominators`.  `succ v` is
`g.From(v)` (the IDs of nodes reachable from `v` by one outgoing edge,
in iteration order); `verts` lists the graph's vertices and is used only
to compute a fuel bound for the traversal. -/
structure DiGraph where
  verts : List Int
  succ : Int → List Int

/-- First-match association-list lookup, the model of reading a Go map. -/
def lookupId {β : Type} (k : Int) : List (Int × β) → Option β
  | [] => none
  | (a, b) :: l => if a = k then some b else lookupId k l

/-- The `ltNode` record of the Go source.  All cross references
(`parent`, `pred`, `bucket`, `dom`, `ancestor`, `label`) are arena
indices standing for the Go pointers; `bucket` is kept as a list in
insertion order (each node is inserted into exactly one bucket once, so
a set is not needed). -/
structure ltNode where
  node : Int
  parent : Option Nat
  pred : List Nat
  semi : Nat
  bucket : List Nat
  dom : Option Nat
  ancestor : Option Nat
  label : Nat
  deriving DecidableEq, Repr

/-- Placeholder record returned by out-of-range arena reads; reachable
states only ever read valid indices. -/
def dfltLTNode : ltNode :=
  { node := 0, parent := none, pred := [], semi := 0, bucket := [],
    dom := none, ancestor := none, label := 0 }

/-- Global state of the Lengauer-Tarjan algorithm: the arena of visited
nodes in DFS preorder and the map from node ID to arena index. -/
structure lengauerTarjan where
  nodes : List ltNode
  indexOf : List (Int × Nat)
  deriving DecidableEq, Repr

def emptyLT : lengauerTarjan := { nodes := [], indexOf := [] }

def lengauerTarjan.nodeAt (lt : lengauerTarjan) (i : Nat) : ltNode :=
  lt.nodes.getD i dfltLTNode

def lengauerTarjan.modifyAt (lt : lengauerTarjan) (i : Nat) (f : ltNode → ltNode) :
    lengauerTarjan :=
  { lt with nodes := lt.nodes.set i (f (lt.nodeAt i)) }

def lengauerTarjan.setParent (lt : lengauerTarjan) (i : Nat) (p : Option Nat) : lengauerTarjan :=
  lt.modifyAt i (fun nd => { nd with parent := p })

def lengauerTarjan.appendPred (lt : lengauerTarjan) (i : Nat) (v : Nat) : lengauerTarjan :=
  lt.modifyAt i (fun nd => { nd with pred := nd.pred ++ [v] })

def lengauerTarjan.setSemi (lt : lengauerTarjan) (i : Nat) (s : Nat) : lengauerTarjan :=
  lt.modifyAt i (fun nd => { nd with semi := s })

def lengauerTarjan.pushBucket (lt : lengauerTarjan) (i : Nat) (v : Nat) : lengauerTarjan :=
  lt.modifyAt i (fun nd => { nd with bucket := nd.bucket ++ [v] })

def lengauerTarjan.setBucket (lt : lengauerTarjan) (i : Nat) (b : List Nat) : lengauerTarjan :=
  lt.modifyAt i (fun nd => { nd with bucket := b })

def lengauerTarjan.setDom (lt : lengauerTarjan) (i : Nat) (d : Option Nat) : lengauerTarjan :=
  lt.modifyAt i (fun nd => { nd with dom := d })

def lengauerTarjan.setAncestor (lt : lengauerTarjan) (i : Nat) (a : Option Nat) : lengauerTarjan :=
  lt.modifyAt i (fun nd => { nd with ancestor := a })

def lengauerTarjan.setLabel (lt : lengauerTarjan) (i : Nat) (l : Nat) : lengauerTarjan :=
  lt.modifyAt i (fun nd => { nd with label := l })

/-- Error raised when the recursion fuel is exhausted (an artefact of
the embedding, distinct from every modelled Go panic). -/
def ltFuelMsg : String := "path: out of fuel"

/-- The message of the `panic` in the Go `dfs` (reached when a
successor visited by the recursive call cannot be found in the index). -/
def ltPanicMsg : String := "path: unintialized node"

/-- The numbering step at the top of `dfs`: record `v` in the index map
with the next rank and append its fresh `ltNode` to the arena. -/
def lengauerTarjan.push (lt : lengauerTarjan) (v : Int) : lengauerTarjan :=
  { nodes := lt.nodes ++
      [{ node := v, parent := none, pred := [], semi := lt.nodes.length, bucket := [],
         dom := none, ancestor := none, label := lt.nodes.length }],
    indexOf := (v, lt.nodes.length) :: lt.indexOf }

mutual

/-- `lengauerTarjan.dfs` of the Go source: number `v`, append its fresh
record to the arena, then walk its successor list. -/
def lengauerTarjan.dfs (g : DiGraph) : Nat → Int → lengauerTarjan →
    Except String lengauerTarjan
  | 0, _, _ => .error ltFuelMsg
  | f + 1, v, lt =>
    lengauerTarjan.dfsFrom g f lt.nodes.length (g.succ v) (lt.push v)

/-- The `for _, w := range g.From(v)` loop of `dfs`; `i` is the arena
index of the node `v` being expanded. -/
def lengauerTarjan.dfsFrom (g : DiGraph) : Nat → Nat → List Int → lengauerTarjan →
    Except String lengauerTarjan
  | 0, _, _, _ => .error ltFuelMsg
  | _ + 1, _, [], lt => .ok lt
  | f + 1, i, w :: ws, lt =>
    match lookupId w lt.indexOf with
    | some idx => lengauerTarjan.dfsFrom g f i ws (lt.appendPred idx i)
    | none =>
      match lengauerTarjan.dfs g f w lt with
      | .error e => .error e
      | .ok lt2 =>
        match lookupId w lt2.indexOf with
        | none => .error ltPanicMsg
        | some idx =>
          lengauerTarjan.dfsFrom g f i ws (((lt2.setParent idx (some i)).appendPred idx i))

end

/-- The Lengauer-Tarjan COMPRESS procedure; a nil `v.ancestor`
dereference is modelled as an error (it cannot occur: `compress` is
only invoked through `eval` on nodes with an ancestor). -/
def lengauerTarjan.compress : Nat → Nat → lengauerTarjan → Except String lengauerTarjan
  | 0, _, _ => .error ltFuelMsg
  | f + 1, v, lt =>
    match (lt.nodeAt v).ancestor with
    | none => .error "path: nil ancestor"
    | some a =>
      match (lt.nodeAt a).ancestor with
      | none => .ok lt
      | some _ =>
        match lengauerTarjan.compress f a lt with
        | .error e => .error e
        | .ok lt2 =>
          let lt3 :=
            if (lt2.nodeAt (lt2.nodeAt a).label).semi < (lt2.nodeAt (lt2.nodeAt v).label).semi
            then lt2.setLabel v (lt2.nodeAt a).label
            else lt2
          .ok (lt3.setAncestor v (lt3.nodeAt a).ancestor)

/-- The Lengauer-Tarjan EVAL function. -/
def lengauerTarjan.eval (f : Nat) (v : Nat) (lt : lengauerTarjan) :
    Except String (Nat × lengauerTarjan) :=
  match (lt.nodeAt v).ancestor with
  | none => .ok (v, lt)
  | some _ =>
    match lengauerTarjan.compress f v lt with
    | .error e => .error e
    | .ok lt2 => .ok ((lt2.nodeAt v).label, lt2)

/-- The Lengauer-Tarjan LINK procedure: `w.ancestor = v`. -/
def lengauerTarjan.link (lt : lengauerTarjan) (v : Option Nat) (w : Nat) : lengauerTarjan :=
  lt.setAncestor w v

/-- One predecessor step of step 2: `u := eval(v); if u.semi < w.semi
then w.semi = u.semi`.  The index `i` is the node `w` being processed. -/
def lengauerTarjan.semiStep (i : Nat) (lt : lengauerTarjan) (v : Nat) :
    Except String lengauerTarjan :=
  match lengauerTarjan.eval lt.nodes.length v lt with
  | .error e => .error e
  | .ok (u, lt1) =>
    if (lt1.nodeAt u).semi < (lt1.nodeAt i).semi
    then .ok (lt1.setSemi i (lt1.nodeAt u).semi)
    else .ok lt1

/-- One bucket entry of step 3: `u := eval(v); if u.semi < v.semi then
v.dom = u else v.dom = w.parent` where `p` is `w.parent`. -/
def lengauerTarjan.drainStep (p : Nat) (lt : lengauerTarjan) (v : Nat) :
    Except String lengauerTarjan :=
  match lengauerTarjan.eval lt.nodes.length v lt with
  | .error e => .error e
  | .ok (u, lt1) =>
    if (lt1.nodeAt u).semi < (lt1.nodeAt v).semi
    then .ok (lt1.setDom v (some u))
    else .ok (lt1.setDom v (some p))

/-- The body of the main loop of `Dominators` for index `i` (steps 2
and 3): compute `w.semi` from the predecessors, insert `w` into the
bucket of `nodes[w.semi]`, link `w` below its parent and drain the
parent's bucket.  Reading `w.parent.bucket` through a nil parent is
modelled as an error. -/
def lengauerTarjan.iter (lt0 : lengauerTarjan) (i : Nat) : Except String lengauerTarjan :=
  match List.foldlM (lengauerTarjan.semiStep i) lt0 (lt0.nodeAt i).pred with
  | .error e => .error e
  | .ok lt1 =>
    let lt2 := lt1.pushBucket (lt1.nodeAt i).semi i
    let lt3 := lt2.link (lt2.nodeAt i).parent i
    match (lt3.nodeAt i).parent with
    | none => .error "path: nil parent"
    | some p =>
      let bs := (lt3.nodeAt p).bucket
      List.foldlM (lengauerTarjan.drainStep p) (lt3.setBucket p []) bs

/-- `for i := len(lt.nodes) - 1; i > 0; i--`: run `iter` on
`i, i-1, ..., 1`. -/
def lengauerTarjan.mainLoop : Nat → lengauerTarjan → Except String lengauerTarjan
  | 0, lt => .ok lt
  | i + 1, lt =>
    match lt.iter (i + 1) with
    | .error e => .error e
    | .ok lt2 => lengauerTarjan.mainLoop i lt2

/-- One node of step 4: `if w.dom.node.ID() != lt.nodes[w.semi].node.ID()
then w.dom = w.dom.dom`.  Reading `w.dom.node` through a nil `dom` is
modelled as an error. -/
def lengauerTarjan.step4one (lt : lengauerTarjan) (i : Nat) : Except String lengauerTarjan :=
  match (lt.nodeAt i).dom with
  | none => .error "path: nil dom"
  | some d =>
    if (lt.nodeAt d).node ≠ (lt.nodeAt (lt.nodeAt i).semi).node
    then .ok (lt.setDom i (lt.nodeAt d).dom)
    else .ok lt

/-- Step 4: a forward pass over `lt.nodes[1:]`. -/
def lengauerTarjan.step4 (lt : lengauerTarjan) : Except String lengauerTarjan :=
  List.foldlM lengauerTarjan.step4one lt (List.range' 1 (lt.nodes.length - 1))

/-- The (node ID, dominator node ID) pair recorded for arena index `i`
when the public tree is constructed. -/
def lengauerTarjan.domPair (lt : lengauerTarjan) (i : Nat) : Except String (Int × Int) :=
  match (lt.nodeAt i).dom with
  | none => .error "path: nil dom"
  | some d => .ok ((lt.nodeAt i).node, (lt.nodeAt d).node)

/-- The construction loop over a list of arena indices, collecting each
index's (node, dominator) pair. -/
def lengauerTarjan.domPairsGo (lt : lengauerTarjan) : List Nat → Except String (List (Int × Int))
  | [] => .ok []
  | i :: is =>
    match lt.domPair i with
    | .error e => .error e
    | .ok pr =>
      match lengauerTarjan.domPairsGo lt is with
      | .error e => .error e
      | .ok prs => .ok (pr :: prs)

/-- The construction loop over `lt.nodes[1:]` building the public maps. -/
def lengauerTarjan.domPairs (lt : lengauerTarjan) : Except String (List (Int × Int)) :=
  lt.domPairsGo (List.range' 1 (lt.nodes.length - 1))

/-- The public dominator tree: `dominatorOf` is the map node ID →
immediate-dominator ID and `dominatedBy` collects, for each dominator,
the nodes it immediately dominates ((dominator ID, dominee ID) pairs in
construction order). -/
structure DominatorTree where
  root : Int
  dominatorOf : List (Int × Int)
  dominatedBy : List (Int × Int)
  deriving DecidableEq, Repr

/-- `DominatorTree.Root` of the Go source. -/
def DominatorTree.Root (d : DominatorTree) : Int := d.root

/-- `DominatorTree.DominatorOf`: the immediate dominator of `n`, or
`none` (the Go nil node) when `n` has no entry. -/
def DominatorTree.DominatorOf (d : DominatorTree) (n : Int) : Option Int :=
  lookupId n d.dominatorOf

/-- `DominatorTree.DominatedBy`: all nodes immediately dominated by
`n`, in the order the construction loop appended them. -/
def DominatorTree.DominatedBy (d : DominatorTree) (n : Int) : List Int :=
  (d.dominatedBy.filter (fun pr => pr.1 == n)).map Prod.snd

/-- Fuel sufficient for any traversal of a graph whose reachable
vertices and edges lie inside `verts`: one unit per vertex plus one per
edge plus slack. -/
def dfsFuel (g : DiGraph) : Nat :=
  g.verts.length + (g.verts.map (fun v => (g.succ v).length)).sum + 2

/-- The DFS stage of `Dominators` (step 1), exposed separately so that
DFS preorder ranks can be named in theorem statements. -/
def ltOfDFS (root : Int) (g : DiGraph) : Except String lengauerTarjan :=
  lengauerTarjan.dfs g (dfsFuel g) root emptyLT

/-- `Dominators` of the Go source: DFS numbering, the main
semidominator loop, the final forward pass, and construction of the
public-facing dominator tree. -/
def Dominators (root : Int) (g : DiGraph) : Except String DominatorTree :=
  match ltOfDFS root g with
  | .error e => .error e
  | .ok lt0 =>
    match lengauerTarjan.mainLoop (lt0.nodes.length - 1) lt0 with
    | .error e => .error e
    | .ok lt1 =>
      match lt1.step4 with
      | .error e => .error e
      | .ok lt2 =>
        match lt2.domPairs with
        | .error e => .error e
        | .ok prs =>
          .ok { root := root, dominatorOf := prs,
                dominatedBy := prs.map (fun pr => (pr.2, pr.1)) }

/-- Reachability along `succ` edges, used to state which nodes the
specification's properties quantify over. -/
inductive Reach (g : DiGraph) : Int → Int → Prop
  | refl (a : Int) : Reach g a a
  | tail {a b c : Int} : Reach g a b → c ∈ g.succ b → Reach g a c

/-- Concrete scenario 1 of the specification: the diamond
root→A, root→B, A→C, B→C followed by the tail C→D, with
root = 0, A = 1, B = 2, C = 3, D = 4. -/
def diamondG : DiGraph :=
  { verts := [0, 1, 2, 3, 4],
    succ := fun v =>
      if v = 0 then [1, 2]
      else if v = 1 then [3]
      else if v = 2 then [3]
      else if v = 3 then [4]
      else [] }

/-- Concrete scenario 2 of the specification: the chain 0→1→2→3. -/
def chainG : DiGraph :=
  { verts := [0, 1, 2, 3],
    succ := fun v =>
      if v = 0 then [1]
      else if v = 1 then [2]
      else if v = 2 then [3]
      else [] }

/-- The DFS preorder rank of a node: its position in the discovery
order of the traversal started at `root` (absent for unreached nodes
and failed traversals). -/
def rankIn (g : DiGraph) (root : Int) (n : Int) : Option Nat :=
  match ltOfDFS root g with
  | .error _ => none
  | .ok lt => lookupId n lt.indexOf

/-- The dominator tree `Dominators 0 diamondG` evaluates to
(DFS order 0, 1 = A, 3 = C, 4 = D, 2 = B). -/
def diamondT : DominatorTree :=
  { root := 0, dominatorOf := [(1, 0), (3, 0), (4, 3), (2, 0)],
    dominatedBy := [(0, 1), (0, 3), (3, 4), (0, 2)] }

/-- The dominator tree `Dominators 0 chainG` evaluates to. -/
def chainT : DominatorTree :=
  { root := 0, dominatorOf := [(1, 0), (2, 1), (3, 2)],
    dominatedBy := [(0, 1), (1, 2), (2, 3)] }

/-- One round of reachability expansion from the accumulated set,
never stepping onto `avoid`. -/
def reachAvoidGo (g : DiGraph) (avoid : Int) : Nat → List Int → List Int
  | 0, acc => acc
  | f + 1, acc =>
    let nxt := ((acc.map g.succ).flatten.filter
      (fun w => !(acc.contains w) && !(w == avoid))).dedup
    reachAvoidGo g avoid f (acc ++ nxt)

/-- Specification-side definition (not from the source): the nodes
reachable from `root` along paths that avoid `avoid`. -/
def reachAvoid (g : DiGraph) (root avoid : Int) : List Int :=
  if root = avoid then [] else reachAvoidGo g avoid (g.verts.length + 1) [root]

/-- Specification-side definition (not from the source), following the
glossary: `d` dominates `n` when every path from `root` to `n` passes
through `d`, that is, when `n` is unreachable once `d` is removed. -/
def dominatesB (g : DiGraph) (root d n : Int) : Bool :=
  !((reachAvoid g root d).contains n)

/-- Specification-side definition (not from the source): `d` is the
immediate dominator of `n` when `d` is a proper dominator of `n` and
every other proper dominator of `n` dominates `d` (`d` is the closest
dominator).  Used as the brute-force ground truth of the
specification's testable property on small graphs. -/
def isIdom (g : DiGraph) (root d n : Int) : Bool :=
  dominatesB g root d n && !(d == n) &&
    ((g.verts.filter (fun e => dominatesB g root e n && !(e == n) && !(e == d))).all
      (fun e => dominatesB g root e d))

/-- A graph with parallel edges (0→1 twice, 1→3 twice) plus a cross
edge 2→1, used as evidence for the duplicate-edge claim. -/
def dupG : DiGraph :=
  { verts := [0, 1, 2, 3],
    succ := fun v =>
      if v = 0 then [1, 1, 2]
      else if v = 1 then [3, 3]
      else if v = 2 then [3, 1]
      else [] }

/-- `dupG` with duplicate successor entries removed. -/
def dupGdedup : DiGraph :=
  { verts := [0, 1, 2, 3],
    succ := fun v =>
      if v = 0 then [1, 2]
      else if v = 1 then [3]
      else if v = 2 then [3, 1]
      else [] }

/-- A node ID that has been assigned a DFS number. -/
def ltMem (lt : lengauerTarjan) (v : Int) : Prop :=
  (lookupId v lt.indexOf).isSome = true

/-- Invariant of the forest bookkeeping: a node's forest ancestor has a
strictly smaller DFS rank (links point to spanning-tree parents and
compression only shortcuts towards the root). -/
def ancLT (lt : lengauerTarjan) : Prop :=
  ∀ j a, (lt.nodeAt j).ancestor = some a → a < j

/-- Invariant: a node's `label` never has a larger rank than the node
(it is the node itself or a forest ancestor's label). -/
def labelLE (lt : lengauerTarjan) : Prop :=
  ∀ j, (lt.nodeAt j).label ≤ j

/-- Invariant: every assigned `dom` has a strictly smaller rank than
the node it belongs to. -/
def domLT (lt : lengauerTarjan) : Prop :=
  ∀ j d, (lt.nodeAt j).dom = some d → d < j

/-- Invariant: every member of a node's bucket has a strictly larger
rank than the bucket's owner. -/
def bucketLT (lt : lengauerTarjan) : Prop :=
  ∀ b v, v ∈ (lt.nodeAt b).bucket → b < v

/-- Invariant established by the DFS: a spanning-tree parent has a
strictly smaller rank and is recorded in the child's predecessor list
(the tree edge is also a graph edge). -/
def parentInv (lt : lengauerTarjan) : Prop :=
  ∀ i p, (lt.nodeAt i).parent = some p → p < i ∧ p ∈ (lt.nodeAt i).pred

/-- Invariant of the main loop: every node not yet processed (rank at
most `k`) still has its initial `semi` and no forest ancestor. -/
def unprocInv (k : Nat) (lt : lengauerTarjan) : Prop :=
  ∀ j, j ≤ k → j < lt.nodes.length → (lt.nodeAt j).semi = j ∧ (lt.nodeAt j).ancestor = none

/-- The full invariant carried through the main Lengauer-Tarjan loop
while the indices `k, k-1, ..., 1` are still to be processed. -/
def loopInv (k : Nat) (lt : lengauerTarjan) : Prop :=
  ancLT lt ∧ labelLE lt ∧ domLT lt ∧ bucketLT lt ∧ parentInv lt ∧ unprocInv k lt

/-- Fields the main loop, step 4 and the tree construction never write:
arena size, the index map, and each record's node, parent and pred. -/
def sameGraphFields (lt lt' : lengauerTarjan) : Prop :=
  lt'.nodes.length = lt.nodes.length ∧ lt'.indexOf = lt.indexOf ∧
  ∀ j, (lt'.nodeAt j).node = (lt.nodeAt j).node ∧
       (lt'.nodeAt j).parent = (lt.nodeAt j).parent ∧
       (lt'.nodeAt j).pred = (lt.nodeAt j).pred

/-- Well-formedness of the DFS output: the index map and the arena are
two views of the same numbering, every record still has its initial
algorithm fields, parents are earlier-ranked predecessors, and
predecessor entries are valid arena indices. -/
structure dfsInv (lt : lengauerTarjan) : Prop where
  idx_lt : ∀ pr ∈ lt.indexOf, pr.2 < lt.nodes.length ∧ (lt.nodeAt pr.2).node = pr.1
  node_idx : ∀ i, i < lt.nodes.length → lookupId (lt.nodeAt i).node lt.indexOf = some i
  fresh : ∀ i, i < lt.nodes.length →
    (lt.nodeAt i).semi = i ∧ (lt.nodeAt i).ancestor = none ∧ (lt.nodeAt i).label = i ∧
      (lt.nodeAt i).dom = none ∧ (lt.nodeAt i).bucket = []
  parent_pred : parentInv lt
  pred_lt : ∀ i, ∀ v ∈ (lt.nodeAt i).pred, v < lt.nodes.length

/-- All record fields except `pred` agree between two states on the
first `n` arena entries. -/
def oldFields (n : Nat) (lt lt' : lengauerTarjan) : Prop :=
  ∀ j, j < n →
    (lt'.nodeAt j).node = (lt.nodeAt j).node ∧
    (lt'.nodeAt j).parent = (lt.nodeAt j).parent ∧
    (lt'.nodeAt j).semi = (lt.nodeAt j).semi ∧
    (lt'.nodeAt j).ancestor = (lt.nodeAt j).ancestor ∧
    (lt'.nodeAt j).label = (lt.nodeAt j).label ∧
    (lt'.nodeAt j).dom = (lt.nodeAt j).dom ∧
    (lt'.nodeAt j).bucket = (lt.nodeAt j).bucket

/-- Postcondition shared by `dfs` and `dfsFrom`: the arena only grows,
the index map grows by entries for the new ranks (all of them unvisited
before the call), every field except `pred` and the index map is
unchanged on pre-existing records, and every newly visited node has all
its successors visited. -/
def dfsPost (g : DiGraph) (lt lt' : lengauerTarjan) : Prop :=
  lt.nodes.length ≤ lt'.nodes.length ∧
  (∃ ext, lt'.indexOf = ext ++ lt.indexOf ∧
    ∀ pr ∈ ext, lt.nodes.length ≤ pr.2 ∧ lookupId pr.1 lt.indexOf = none) ∧
  oldFields lt.nodes.length lt lt' ∧
  (∀ id, ltMem lt' id → ltMem lt id ∨ ∀ w ∈ g.succ id, ltMem lt' w)

/-- Full postcondition of a successful `dfs` call on an unvisited node
`v` (the induction statement of the traversal's correctness ladder). -/
def dfsPartP (g : DiGraph) (f : Nat) : Prop :=
  ∀ v lt lt', lengauerTarjan.dfs g f v lt = .ok lt' → lookupId v lt.indexOf = none →
    dfsPost g lt lt' ∧
    lookupId v lt'.indexOf = some lt.nodes.length ∧
    lt.nodes.length < lt'.nodes.length ∧
    (lt'.nodeAt lt.nodes.length).parent = none ∧
    (lt'.nodeAt lt.nodes.length).node = v ∧
    (∀ w ∈ g.succ v, ltMem lt' w) ∧
    (dfsInv lt → dfsInv lt')

/-- Full postcondition of a successful `dfsFrom` call (the successor
loop of node `i`). -/
def dfsFromP (g : DiGraph) (f : Nat) : Prop :=
  ∀ i ws lt lt', lengauerTarjan.dfsFrom g f i ws lt = .ok lt' → i < lt.nodes.length →
    dfsPost g lt lt' ∧ (∀ w ∈ ws, ltMem lt' w) ∧ (dfsInv lt → dfsInv lt')

/-- Fields `eval`/`compress` never change: everything except `ancestor`
and `label`, plus the arena size and the index map. -/
def evalFrame (lt lt' : lengauerTarjan) : Prop :=
  lt'.nodes.length = lt.nodes.length ∧ lt'.indexOf = lt.indexOf ∧
  ∀ j, (lt'.nodeAt j).node = (lt.nodeAt j).node ∧
    (lt'.nodeAt j).parent = (lt.nodeAt j).parent ∧
    (lt'.nodeAt j).pred = (lt.nodeAt j).pred ∧
    (lt'.nodeAt j).semi = (lt.nodeAt j).semi ∧
    (lt'.nodeAt j).dom = (lt.nodeAt j).dom ∧
    (lt'.nodeAt j).bucket = (lt.nodeAt j).bucket

/-! ### Basic lemmas about the arena accessors -/

theorem length_modifyAt (lt : lengauerTarjan) (i : Nat) (f : ltNode → ltNode) :
    (lt.modifyAt i f).nodes.length = lt.nodes.length := by
  simp [lengauerTarjan.modifyAt]

theorem indexOf_modifyAt (lt : lengauerTarjan) (i : Nat) (f : ltNode → ltNode) :
    (lt.modifyAt i f).indexOf = lt.indexOf := rfl

theorem nodeAt_modifyAt_self (lt : lengauerTarjan) (i : Nat) (f : ltNode → ltNode)
    (h : i < lt.nodes.length) : (lt.modifyAt i f).nodeAt i = f (lt.nodeAt i) := by
  show (lt.nodes.set i (f (lt.nodes.getD i dfltLTNode))).getD i dfltLTNode
      = f (lt.nodes.getD i dfltLTNode)
  have h2 : i < (lt.nodes.set i (f (lt.nodes.getD i dfltLTNode))).length := by simpa using h
  rw [List.getD_eq_getElem?_getD, List.getElem?_eq_getElem h2, List.getElem_set_self _]
  rfl

theorem nodeAt_modifyAt_ne (lt : lengauerTarjan) (i : Nat) (f : ltNode → ltNode)
    (j : Nat) (h : j ≠ i) : (lt.modifyAt i f).nodeAt j = lt.nodeAt j := by
  simp [lengauerTarjan.modifyAt, lengauerTarjan.nodeAt, List.getD_eq_getElem?_getD,
    List.getElem?_set_ne (Ne.symm h)]

theorem nodeAt_modifyAt_oob (lt : lengauerTarjan) (i : Nat) (f : ltNode → ltNode)
    (h : ¬ i < lt.nodes.length) : (lt.modifyAt i f).nodeAt i = lt.nodeAt i := by
  simp only [lengauerTarjan.modifyAt, lengauerTarjan.nodeAt]
  rw [List.set_eq_of_length_le (Nat.le_of_not_lt h)]

/-! ### Lemmas about association-list lookup -/

theorem lookupId_append_some {β : Type} {k : Int} {l1 : List (Int × β)} (l2 : List (Int × β))
    {b : β} (h : lookupId k l1 = some b) : lookupId k (l1 ++ l2) = some b := by
  induction l1 with
  | nil => simp [lookupId] at h
  | cons pr l ih =>
    obtain ⟨a, c⟩ := pr
    by_cases hk : a = k
    · simp [lookupId, hk] at h ⊢; exact h
    · simp [lookupId, hk] at h ⊢; exact ih h

theorem lookupId_append_none {β : Type} {k : Int} {l1 : List (Int × β)} (l2 : List (Int × β))
    (h : lookupId k l1 = none) : lookupId k (l1 ++ l2) = lookupId k l2 := by
  induction l1 with
  | nil => simp [lookupId]
  | cons pr l ih =>
    obtain ⟨a, c⟩ := pr
    by_cases hk : a = k
    · simp [lookupId, hk] at h
    · simp [lookupId, hk] at h ⊢; exact ih h

theorem lookupId_mem {β : Type} {k : Int} {l : List (Int × β)} {b : β}
    (h : lookupId k l = some b) : (k, b) ∈ l := by
  induction l with
  | nil => simp [lookupId] at h
  | cons pr l ih =>
    obtain ⟨a, c⟩ := pr
    by_cases hk : a = k
    · simp [lookupId, hk] at h
      subst hk h
      exact List.mem_cons_self _ _
    · simp [lookupId, hk] at h
      exact List.mem_cons_of_mem _ (ih h)

theorem lookupId_isSome_of_mem {β : Type} {k : Int} {l : List (Int × β)} {b : β}
    (h : (k, b) ∈ l) : (lookupId k l).isSome = true := by
  induction l with
  | nil => simp at h
  | cons pr l ih =>
    obtain ⟨a, c⟩ := pr
    rcases List.mem_cons.1 h with h1 | h1
    · cases h1
      simp [lookupId]
    · by_cases hk : a = k
      · simp [lookupId, hk]
      · simp [lookupId, hk]
        exact ih h1

theorem lookupId_eq_some {β : Type} {k : Int} {l : List (Int × β)} {b : β}
    (hmem : (k, b) ∈ l) (huniq : ∀ b', (k, b') ∈ l → b' = b) : lookupId k l = some b := by
  induction l with
  | nil => simp at hmem
  | cons pr l ih =>
    obtain ⟨a, c⟩ := pr
    by_cases hk : a = k
    · subst hk
      have : c = b := huniq c (List.mem_cons_self _ _)
      simp [lookupId, this]
    · simp [lookupId, hk]
      rcases List.mem_cons.1 hmem with h1 | h1
      · cases h1; exact absurd rfl hk
      · exact ih h1 (fun b' hb' => huniq b' (List.mem_cons_of_mem _ hb'))

theorem lookupId_eq_none {β : Type} {k : Int} {l : List (Int × β)}
    (h : ∀ b, (k, b) ∉ l) : lookupId k l = none := by
  induction l with
  | nil => simp [lookupId]
  | cons pr l ih =>
    obtain ⟨a, c⟩ := pr
    by_cases hk : a = k
    · subst hk
      exact absurd (List.mem_cons_self _ _) (h c)
    · simp [lookupId, hk]
      exact ih (fun b hb => h b (List.mem_cons_of_mem _ hb))

theorem ltMem_mono {g : DiGraph} {lt lt' : lengauerTarjan} (h : dfsPost g lt lt')
    {id : Int} (hm : ltMem lt id) : ltMem lt' id := by
  obtain ⟨-, ⟨ext, hext, -⟩, -, -⟩ := h
  unfold ltMem at hm ⊢
  rw [hext]
  rcases ho : lookupId id ext with _ | b
  · rw [lookupId_append_none _ ho]; exact hm
  · rw [lookupId_append_some _ ho]; rfl

theorem nodeAt_oob (lt : lengauerTarjan) (i : Nat) (h : lt.nodes.length ≤ i) :
    lt.nodeAt i = dfltLTNode := by
  simp [lengauerTarjan.nodeAt, List.getD_eq_getElem?_getD, List.getElem?_eq_none h]

theorem nodeAt_modifyAt (lt : lengauerTarjan) (i : Nat) (f : ltNode → ltNode) (j : Nat) :
    (lt.modifyAt i f).nodeAt j =
      if j = i ∧ i < lt.nodes.length then f (lt.nodeAt i) else lt.nodeAt j := by
  by_cases h1 : j = i
  · subst h1
    by_cases h2 : j < lt.nodes.length
    · simp [h2, nodeAt_modifyAt_self _ _ _ h2]
    · simp [h2, nodeAt_modifyAt_oob _ _ _ h2]
  · simp [h1, nodeAt_modifyAt_ne _ _ _ _ h1]

theorem push_indexOf (lt : lengauerTarjan) (v : Int) :
    (lt.push v).indexOf = (v, lt.nodes.length) :: lt.indexOf := rfl

theorem push_length (lt : lengauerTarjan) (v : Int) :
    (lt.push v).nodes.length = lt.nodes.length + 1 := by
  simp [lengauerTarjan.push]

theorem push_nodeAt_self (lt : lengauerTarjan) (v : Int) :
    (lt.push v).nodeAt lt.nodes.length =
      { node := v, parent := none, pred := [], semi := lt.nodes.length, bucket := [],
        dom := none, ancestor := none, label := lt.nodes.length } := by
  simp [lengauerTarjan.push, lengauerTarjan.nodeAt, List.getD_eq_getElem?_getD,
    List.getElem?_concat_length]

theorem push_nodeAt_lt (lt : lengauerTarjan) (v : Int) (j : Nat) (h : j < lt.nodes.length) :
    (lt.push v).nodeAt j = lt.nodeAt j := by
  simp [lengauerTarjan.push, lengauerTarjan.nodeAt, List.getD_eq_getElem?_getD,
    List.getElem?_append_left h]

theorem dfsInv_push {lt : lengauerTarjan} {v : Int} (hinv : dfsInv lt)
    (hnone : lookupId v lt.indexOf = none) : dfsInv (lt.push v) := by
  have hlen := push_length lt v
  constructor
  · intro pr hpr
    rw [push_indexOf] at hpr
    rcases List.mem_cons.1 hpr with h1 | h1
    · subst h1
      rw [hlen, push_nodeAt_self]
      exact ⟨Nat.lt_succ_self _, rfl⟩
    · obtain ⟨h2, h3⟩ := hinv.idx_lt pr h1
      rw [hlen, push_nodeAt_lt _ _ _ h2]
      exact ⟨Nat.lt_succ_of_lt h2, h3⟩
  · intro i hi
    rw [hlen] at hi
    rcases Nat.lt_succ_iff_lt_or_eq.1 hi with h1 | h1
    · rw [push_nodeAt_lt _ _ _ h1, push_indexOf]
      have hne : v ≠ (lt.nodeAt i).node := by
        intro he
        rw [he] at hnone
        rw [hinv.node_idx i h1] at hnone
        exact Option.noConfusion hnone
      simp [lookupId, hne]
      exact hinv.node_idx i h1
    · subst h1
      rw [push_nodeAt_self, push_indexOf]
      simp [lookupId]
  · intro i hi
    rw [hlen] at hi
    rcases Nat.lt_succ_iff_lt_or_eq.1 hi with h1 | h1
    · rw [push_nodeAt_lt _ _ _ h1]
      exact hinv.fresh i h1
    · subst h1
      rw [push_nodeAt_self]
      exact ⟨rfl, rfl, rfl, rfl, rfl⟩
  · intro i p hp
    rcases Nat.lt_trichotomy i lt.nodes.length with h1 | h1 | h1
    · rw [push_nodeAt_lt _ _ _ h1] at hp ⊢
      exact hinv.parent_pred i p hp
    · subst h1
      rw [push_nodeAt_self] at hp
      exact Option.noConfusion hp
    · rw [nodeAt_oob _ _ (by rw [hlen]; omega)] at hp
      exact Option.noConfusion hp
  · intro i v' hv'
    rw [hlen]
    rcases Nat.lt_trichotomy i lt.nodes.length with h1 | h1 | h1
    · rw [push_nodeAt_lt _ _ _ h1] at hv'
      exact Nat.lt_succ_of_lt (hinv.pred_lt i v' hv')
    · subst h1
      rw [push_nodeAt_self] at hv'
      simp at hv'
    · rw [nodeAt_oob _ _ (by rw [hlen]; omega)] at hv'
      simp [dfltLTNode] at hv'

theorem lookupId_none_right {β : Type} {k : Int} {l1 l2 : List (Int × β)}
    (h : lookupId k (l1 ++ l2) = none) : lookupId k l2 = none := by
  rcases ho : lookupId k l2 with _ | b
  · rfl
  · exfalso
    rcases ho1 : lookupId k l1 with _ | b1
    · rw [lookupId_append_none _ ho1, ho] at h
      exact Option.noConfusion h
    · rw [lookupId_append_some _ ho1] at h
      exact Option.noConfusion h

theorem oldFields_trans {n : Nat} {lt1 lt2 lt3 : lengauerTarjan}
    (h1 : oldFields n lt1 lt2) (h2 : oldFields n lt2 lt3) : oldFields n lt1 lt3 := by
  intro j hj
  obtain ⟨a1, b1, c1, d1, e1, f1, g1⟩ := h1 j hj
  obtain ⟨a2, b2, c2, d2, e2, f2, g2⟩ := h2 j hj
  exact ⟨a2.trans a1, b2.trans b1, c2.trans c1, d2.trans d1, e2.trans e1, f2.trans f1,
    g2.trans g1⟩

theorem oldFields_mono {n m : Nat} {lt1 lt2 : lengauerTarjan} (hle : n ≤ m)
    (h : oldFields m lt1 lt2) : oldFields n lt1 lt2 :=
  fun j hj => h j (Nat.lt_of_lt_of_le hj hle)

theorem appendPred_sameFields (lt : lengauerTarjan) (idx i j : Nat) :
    ((lt.appendPred idx i).nodeAt j).node = (lt.nodeAt j).node ∧
    ((lt.appendPred idx i).nodeAt j).parent = (lt.nodeAt j).parent ∧
    ((lt.appendPred idx i).nodeAt j).semi = (lt.nodeAt j).semi ∧
    ((lt.appendPred idx i).nodeAt j).ancestor = (lt.nodeAt j).ancestor ∧
    ((lt.appendPred idx i).nodeAt j).label = (lt.nodeAt j).label ∧
    ((lt.appendPred idx i).nodeAt j).dom = (lt.nodeAt j).dom ∧
    ((lt.appendPred idx i).nodeAt j).bucket = (lt.nodeAt j).bucket := by
  rw [lengauerTarjan.appendPred, nodeAt_modifyAt]
  split
  · next hc =>
    rw [hc.1]
    exact ⟨rfl, rfl, rfl, rfl, rfl, rfl, rfl⟩
  · exact ⟨rfl, rfl, rfl, rfl, rfl, rfl, rfl⟩

/-- Common shape of the two DFS updates to an existing record: the
`pred` list may gain `i` at the end and the parent may be set to `i`
when `i` is an earlier rank also recorded in `pred`. -/
theorem dfsInv_predParent {lt lt' : lengauerTarjan} (hinv : dfsInv lt) (idx i : Nat)
    (hi : i < lt.nodes.length)
    (hlen : lt'.nodes.length = lt.nodes.length)
    (hidxof : lt'.indexOf = lt.indexOf)
    (hother : ∀ j, j ≠ idx → lt'.nodeAt j = lt.nodeAt j)
    (hnode : (lt'.nodeAt idx).node = (lt.nodeAt idx).node)
    (hsemi : (lt'.nodeAt idx).semi = (lt.nodeAt idx).semi)
    (hanc : (lt'.nodeAt idx).ancestor = (lt.nodeAt idx).ancestor)
    (hlab : (lt'.nodeAt idx).label = (lt.nodeAt idx).label)
    (hdom : (lt'.nodeAt idx).dom = (lt.nodeAt idx).dom)
    (hbuc : (lt'.nodeAt idx).bucket = (lt.nodeAt idx).bucket)
    (hpred : (lt'.nodeAt idx).pred = (lt.nodeAt idx).pred ∨
             (lt'.nodeAt idx).pred = (lt.nodeAt idx).pred ++ [i])
    (hpar : (lt'.nodeAt idx).parent = (lt.nodeAt idx).parent ∨
            ((lt'.nodeAt idx).parent = some i ∧ i < idx ∧ i ∈ (lt'.nodeAt idx).pred)) :
    dfsInv lt' := by
  have hnodeAll : ∀ j, (lt'.nodeAt j).node = (lt.nodeAt j).node := by
    intro j
    by_cases hj : j = idx
    · rw [hj]; exact hnode
    · rw [hother j hj]
  constructor
  · intro pr hpr
    rw [hidxof] at hpr
    obtain ⟨h2, h3⟩ := hinv.idx_lt pr hpr
    rw [hlen, hnodeAll pr.2]
    exact ⟨h2, h3⟩
  · intro j hj
    rw [hlen] at hj
    rw [hnodeAll j, hidxof]
    exact hinv.node_idx j hj
  · intro j hj
    rw [hlen] at hj
    by_cases hje : j = idx
    · subst hje
      rw [hsemi, hanc, hlab, hdom, hbuc]
      exact hinv.fresh j hj
    · rw [hother j hje]
      exact hinv.fresh j hj
  · intro j p hp
    by_cases hje : j = idx
    · subst hje
      rcases hpar with hc | ⟨hc1, hc2, hc3⟩
      · rw [hc] at hp
        obtain ⟨hlt, hmem⟩ := hinv.parent_pred j p hp
        refine ⟨hlt, ?_⟩
        rcases hpred with hq | hq
        · rw [hq]; exact hmem
        · rw [hq]; exact List.mem_append_left _ hmem
      · rw [hc1] at hp
        cases hp
        exact ⟨hc2, hc3⟩
    · rw [hother j hje] at hp ⊢
      exact hinv.parent_pred j p hp
  · intro j v' hv'
    rw [hlen]
    by_cases hje : j = idx
    · subst hje
      rcases hpred with hq | hq
      · rw [hq] at hv'
        exact hinv.pred_lt j v' hv'
      · rw [hq] at hv'
        rcases List.mem_append.1 hv' with hm | hm
        · exact hinv.pred_lt j v' hm
        · simp at hm
          rw [hm]
          exact hi
    · rw [hother j hje] at hv'
      exact hinv.pred_lt j v' hv'

theorem dfsInv_appendPred {lt : lengauerTarjan} (hinv : dfsInv lt) {idx i : Nat}
    (hi : i < lt.nodes.length) : dfsInv (lt.appendPred idx i) := by
  by_cases hidx : idx < lt.nodes.length
  · refine dfsInv_predParent hinv idx i hi (length_modifyAt _ _ _) rfl
      (fun j hj => nodeAt_modifyAt_ne _ _ _ _ hj) ?_ ?_ ?_ ?_ ?_ ?_ ?_ ?_
    all_goals rw [lengauerTarjan.appendPred, nodeAt_modifyAt_self _ _ _ hidx]
    · exact Or.inr rfl
    · exact Or.inl rfl
  · have heq : lt.appendPred idx i = lt := by
      simp only [lengauerTarjan.appendPred, lengauerTarjan.modifyAt]
      rw [List.set_eq_of_length_le (Nat.le_of_not_lt hidx)]
    rw [heq]
    exact hinv

theorem dfsInv_setParent_appendPred {lt : lengauerTarjan} (hinv : dfsInv lt) {idx i : Nat}
    (hi : i < lt.nodes.length) (hii : i < idx) :
    dfsInv ((lt.setParent idx (some i)).appendPred idx i) := by
  by_cases hidx : idx < lt.nodes.length
  · have hlen1 : (lt.setParent idx (some i)).nodes.length = lt.nodes.length :=
      length_modifyAt _ _ _
    have hidx1 : idx < (lt.setParent idx (some i)).nodes.length := by rw [hlen1]; exact hidx
    have hat1 : (lt.setParent idx (some i)).nodeAt idx = { lt.nodeAt idx with parent := some i } :=
      nodeAt_modifyAt_self _ _ _ hidx
    have hat2 : ((lt.setParent idx (some i)).appendPred idx i).nodeAt idx =
        { lt.nodeAt idx with
          parent := some i,
          pred := (lt.nodeAt idx).pred ++ [i] } := by
      rw [lengauerTarjan.appendPred, nodeAt_modifyAt_self _ _ _ hidx1, hat1]
    refine dfsInv_predParent hinv idx i hi ?_ rfl ?_ ?_ ?_ ?_ ?_ ?_ ?_ ?_ ?_
    · rw [lengauerTarjan.appendPred, length_modifyAt]
      exact hlen1
    · intro j hj
      rw [lengauerTarjan.appendPred, nodeAt_modifyAt_ne _ _ _ _ hj,
        lengauerTarjan.setParent, nodeAt_modifyAt_ne _ _ _ _ hj]
    · rw [hat2]
    · rw [hat2]
    · rw [hat2]
    · rw [hat2]
    · rw [hat2]
    · rw [hat2]
    · rw [hat2]
      exact Or.inr rfl
    · rw [hat2]
      refine Or.inr ⟨rfl, hii, ?_⟩
      exact List.mem_append_right _ (List.mem_singleton.2 rfl)
  · have heq1 : lt.setParent idx (some i) = lt := by
      simp only [lengauerTarjan.setParent, lengauerTarjan.modifyAt]
      rw [List.set_eq_of_length_le (Nat.le_of_not_lt hidx)]
    rw [heq1]
    exact dfsInv_appendPred hinv hi

theorem oldFields_refl (n : Nat) (lt : lengauerTarjan) : oldFields n lt lt :=
  fun _ _ => ⟨rfl, rfl, rfl, rfl, rfl, rfl, rfl⟩

theorem dfs_ladder (g : DiGraph) : ∀ f : Nat, dfsPartP g f ∧ dfsFromP g f := by
  intro f
  induction f with
  | zero =>
    constructor
    · intro v lt lt' h _
      simp [lengauerTarjan.dfs] at h
    · intro i ws lt lt' h _
      simp [lengauerTarjan.dfsFrom] at h
  | succ f ih =>
    obtain ⟨ihd, ihf⟩ := ih
    constructor
    · intro v lt lt' h hnone
      simp only [lengauerTarjan.dfs] at h
      have hlt : lt.nodes.length < (lt.push v).nodes.length := by
        rw [push_length]
        exact Nat.lt_succ_self _
      obtain ⟨hpost, hws, hinvp⟩ := ihf lt.nodes.length (g.succ v) (lt.push v) lt' h hlt
      obtain ⟨hlen2, ⟨ext, hext, hextb⟩, hframe, hclosed⟩ := hpost
      have hextv : ∀ b, (v, b) ∉ ext := by
        intro b hb
        have h2 := (hextb (v, b) hb).2
        rw [push_indexOf] at h2
        simp [lookupId] at h2
      have hlookup' : lookupId v lt'.indexOf = some lt.nodes.length := by
        rw [hext, lookupId_append_none _ (lookupId_eq_none hextv), push_indexOf]
        simp [lookupId]
      have hframe0 := hframe lt.nodes.length hlt
      refine ⟨?_, hlookup', Nat.lt_of_lt_of_le hlt hlen2, ?_, ?_, hws, ?_⟩
      · refine ⟨Nat.le_trans (Nat.le_of_lt hlt) hlen2, ⟨ext ++ [(v, lt.nodes.length)], ?_, ?_⟩,
          ?_, ?_⟩
        · rw [hext, push_indexOf, List.append_assoc]
          rfl
        · intro pr hpr
          rcases List.mem_append.1 hpr with hm | hm
          · obtain ⟨hb1, hb2⟩ := hextb pr hm
            rw [push_length] at hb1
            rw [push_indexOf] at hb2
            constructor
            · omega
            · by_cases hv : v = pr.1
              · rw [hv] at hb2
                simp [lookupId] at hb2
              · simp only [lookupId, if_neg hv] at hb2
                exact hb2
          · simp at hm
            subst hm
            exact ⟨Nat.le_refl _, hnone⟩
        · refine oldFields_trans ?_ (oldFields_mono ?_ hframe)
          · intro j hj
            rw [push_nodeAt_lt _ _ _ hj]
            exact ⟨rfl, rfl, rfl, rfl, rfl, rfl, rfl⟩
          · rw [push_length]
            omega
        · intro id hm
          rcases hclosed id hm with hm1 | hm1
          · unfold ltMem at hm1
            rw [push_indexOf] at hm1
            by_cases hv : v = id
            · subst hv
              exact Or.inr hws
            · simp only [lookupId, if_neg hv] at hm1
              exact Or.inl hm1
          · exact Or.inr hm1
      · rw [hframe0.2.1, push_nodeAt_self]
      · rw [hframe0.1, push_nodeAt_self]
      · intro hinv
        exact hinvp (dfsInv_push hinv hnone)
    · intro i ws lt lt' h hi
      cases ws with
      | nil =>
        simp only [lengauerTarjan.dfsFrom] at h
        cases h
        refine ⟨⟨Nat.le_refl _, ⟨[], rfl, by simp⟩, oldFields_refl _ _, fun id hm => Or.inl hm⟩,
          by simp, fun hv => hv⟩
      | cons w ws =>
        simp only [lengauerTarjan.dfsFrom] at h
        rcases hl : lookupId w lt.indexOf with _ | idx
        · rcases hd : lengauerTarjan.dfs g f w lt with e | lt2
          · simp only [hl, hd] at h
            exact Except.noConfusion h
          · obtain ⟨hpost1, hlook1, hlen1, hpar1, hnode1, hsucc1, hinv1⟩ := ihd w lt lt2 hd hl
            simp only [hl, hd, hlook1] at h
            have hlen3 : ((lt2.setParent lt.nodes.length (some i)).appendPred
                lt.nodes.length i).nodes.length = lt2.nodes.length := by
              rw [lengauerTarjan.appendPred, length_modifyAt, lengauerTarjan.setParent,
                length_modifyAt]
            have hidxof3 : ((lt2.setParent lt.nodes.length (some i)).appendPred
                lt.nodes.length i).indexOf = lt2.indexOf := rfl
            have hi3 : i < ((lt2.setParent lt.nodes.length (some i)).appendPred
                lt.nodes.length i).nodes.length := by
              rw [hlen3]
              omega
            obtain ⟨hpost2, hws2, hinv2⟩ := ihf i ws _ lt' h hi3
            obtain ⟨hlen2a, ⟨ext1, hext1, hextb1⟩, hframe1, hclosed1⟩ := hpost1
            obtain ⟨hlen2b, ⟨ext2, hext2, hextb2⟩, hframe2, hclosed2⟩ := hpost2
            have hmemmono : ∀ id : Int, ltMem lt2 id → ltMem lt' id := by
              intro id hm
              exact ltMem_mono ⟨hlen2b, ⟨ext2, hext2, hextb2⟩, hframe2, hclosed2⟩ hm
            have hframeS : oldFields lt.nodes.length lt2
                ((lt2.setParent lt.nodes.length (some i)).appendPred lt.nodes.length i) := by
              intro j hj
              have hne : j ≠ lt.nodes.length := Nat.ne_of_lt hj
              rw [lengauerTarjan.appendPred, nodeAt_modifyAt_ne _ _ _ _ hne,
                lengauerTarjan.setParent, nodeAt_modifyAt_ne _ _ _ _ hne]
              exact ⟨rfl, rfl, rfl, rfl, rfl, rfl, rfl⟩
            have hwmem : ltMem lt' w := by
              apply hmemmono
              unfold ltMem
              rw [hlook1]
              rfl
            refine ⟨⟨?_, ⟨ext2 ++ ext1, ?_, ?_⟩, ?_, ?_⟩, ?_, ?_⟩
            · calc lt.nodes.length ≤ lt2.nodes.length := hlen2a
                _ = _ := hlen3.symm
                _ ≤ lt'.nodes.length := hlen2b
            · rw [hext2, hidxof3, hext1, List.append_assoc]
            · intro pr hpr
              rcases List.mem_append.1 hpr with hm | hm
              · obtain ⟨hb1, hb2⟩ := hextb2 pr hm
                rw [hlen3] at hb1
                rw [hidxof3, hext1] at hb2
                exact ⟨by omega, lookupId_none_right hb2⟩
              · exact hextb1 pr hm
            · exact oldFields_trans hframe1 (oldFields_trans hframeS
                (oldFields_mono (by omega) hframe2))
            · intro id hm
              rcases hclosed2 id hm with hm1 | hm1
              · rw [show ltMem ((lt2.setParent lt.nodes.length (some i)).appendPred
                    lt.nodes.length i) id = ltMem lt2 id from rfl] at hm1
                rcases hclosed1 id hm1 with hm2 | hm2
                · exact Or.inl hm2
                · exact Or.inr (fun w' hw' => hmemmono w' (hm2 w' hw'))
              · exact Or.inr hm1
            · intro w' hw'
              rcases List.mem_cons.1 hw' with hw1 | hw1
              · rw [hw1]
                exact hwmem
              · exact hws2 w' hw1
            · intro hinv
              exact hinv2 (dfsInv_setParent_appendPred (hinv1 hinv) (by omega) hi)
        · rw [hl] at h
          have hi2 : i < (lt.appendPred idx i).nodes.length := by
            rw [lengauerTarjan.appendPred, length_modifyAt]
            exact hi
          obtain ⟨hpost, hws, hinvp⟩ := ihf i ws _ lt' h hi2
          obtain ⟨hlen2, ⟨ext, hext, hextb⟩, hframe, hclosed⟩ := hpost
          have hlena : (lt.appendPred idx i).nodes.length = lt.nodes.length := by
            rw [lengauerTarjan.appendPred, length_modifyAt]
          have hwmem : ltMem lt' w := by
            apply ltMem_mono ⟨hlen2, ⟨ext, hext, hextb⟩, hframe, hclosed⟩
            show (lookupId w lt.indexOf).isSome = true
            rw [hl]
            rfl
          refine ⟨⟨?_, ⟨ext, hext, ?_⟩, ?_, ?_⟩, ?_, ?_⟩
          · rw [← hlena]
            exact hlen2
          · intro pr hpr
            have hb := hextb pr hpr
            rw [hlena] at hb
            exact hb
          · exact oldFields_trans (fun j _ => appendPred_sameFields lt idx i j)
              (oldFields_mono (Nat.le_of_eq hlena.symm) hframe)
          · intro id hm
            exact hclosed id hm
          · intro w' hw'
            rcases List.mem_cons.1 hw' with hw1 | hw1
            · rw [hw1]
              exact hwmem
            · exact hws w' hw1
          · intro hinv
            exact hinvp (dfsInv_appendPred hinv hi)

/-- The only error a traversal can produce is fuel exhaustion (an
embedding artefact): the `panic` branch of `dfs` is unreachable because
the recursive call always registers the successor in the index map. -/
theorem dfs_no_panic_ladder (g : DiGraph) : ∀ f : Nat,
    (∀ v lt, (∃ lt', lengauerTarjan.dfs g f v lt = .ok lt') ∨
      lengauerTarjan.dfs g f v lt = .error ltFuelMsg) ∧
    (∀ i ws lt, (∃ lt', lengauerTarjan.dfsFrom g f i ws lt = .ok lt') ∨
      lengauerTarjan.dfsFrom g f i ws lt = .error ltFuelMsg) := by
  intro f
  induction f with
  | zero =>
    constructor
    · intro v lt
      exact Or.inr rfl
    · intro i ws lt
      exact Or.inr rfl
  | succ f ih =>
    obtain ⟨ihd, ihf⟩ := ih
    constructor
    · intro v lt
      simp only [lengauerTarjan.dfs]
      exact ihf lt.nodes.length (g.succ v) (lt.push v)
    · intro i ws lt
      cases ws with
      | nil =>
        exact Or.inl ⟨lt, rfl⟩
      | cons w ws =>
        rcases hl : lookupId w lt.indexOf with _ | idx
        · rcases hd : lengauerTarjan.dfs g f w lt with e | lt2
          · rcases ihd w lt with ⟨lt', hok⟩ | hfuel
            · rw [hd] at hok
              exact Except.noConfusion hok
            · rw [hd] at hfuel
              injection hfuel with he
              subst he
              right
              simp only [lengauerTarjan.dfsFrom, hl, hd]
          · have hlook : lookupId w lt2.indexOf = some lt.nodes.length :=
              ((dfs_ladder g f).1 w lt lt2 hd hl).2.1
            have hred : lengauerTarjan.dfsFrom g (f + 1) i (w :: ws) lt =
                lengauerTarjan.dfsFrom g f i ws
                  ((lt2.setParent lt.nodes.length (some i)).appendPred lt.nodes.length i) := by
              simp only [lengauerTarjan.dfsFrom, hl, hd, hlook]
            rw [hred]
            exact ihf i ws _
        · have hred : lengauerTarjan.dfsFrom g (f + 1) i (w :: ws) lt =
              lengauerTarjan.dfsFrom g f i ws (lt.appendPred idx i) := by
            simp only [lengauerTarjan.dfsFrom, hl]
          rw [hred]
          exact ihf i ws _

/-- Everything the traversal indexes satisfies any successor-closed
predicate holding at the call's argument (used with reachability). -/
theorem dfs_reach_ladder (g : DiGraph) (R : Int → Prop)
    (hR : ∀ a b, R a → b ∈ g.succ a → R b) : ∀ f : Nat,
    (∀ v lt lt', lengauerTarjan.dfs g f v lt = .ok lt' → R v →
      (∀ pr ∈ lt.indexOf, R pr.1) → ∀ pr ∈ lt'.indexOf, R pr.1) ∧
    (∀ i ws lt lt', lengauerTarjan.dfsFrom g f i ws lt = .ok lt' → (∀ w ∈ ws, R w) →
      (∀ pr ∈ lt.indexOf, R pr.1) → ∀ pr ∈ lt'.indexOf, R pr.1) := by
  intro f
  induction f with
  | zero =>
    constructor
    · intro v lt lt' h
      simp [lengauerTarjan.dfs] at h
    · intro i ws lt lt' h
      simp [lengauerTarjan.dfsFrom] at h
  | succ f ih =>
    obtain ⟨ihd, ihf⟩ := ih
    constructor
    · intro v lt lt' h hv hall
      simp only [lengauerTarjan.dfs] at h
      refine ihf lt.nodes.length (g.succ v) (lt.push v) lt' h (fun w hw => hR v w hv hw) ?_
      intro pr hpr
      rw [push_indexOf] at hpr
      rcases List.mem_cons.1 hpr with h1 | h1
      · rw [h1]
        exact hv
      · exact hall pr h1
    · intro i ws lt lt' h hws hall
      cases ws with
      | nil =>
        simp only [lengauerTarjan.dfsFrom] at h
        cases h
        exact hall
      | cons w ws =>
        simp only [lengauerTarjan.dfsFrom] at h
        rcases hl : lookupId w lt.indexOf with _ | idx
        · rcases hd : lengauerTarjan.dfs g f w lt with e | lt2
          · simp only [hl, hd] at h
            exact Except.noConfusion h
          · have hlook : lookupId w lt2.indexOf = some lt.nodes.length :=
              ((dfs_ladder g f).1 w lt lt2 hd hl).2.1
            simp only [hl, hd, hlook] at h
            refine ihf i ws _ lt' h (fun w' hw' => hws w' (List.mem_cons_of_mem _ hw')) ?_
            have hall2 := ihd w lt lt2 hd (hws w (List.mem_cons_self _ _)) hall
            intro pr hpr
            exact hall2 pr hpr
        · rw [hl] at h
          exact ihf i ws _ lt' h (fun w' hw' => hws w' (List.mem_cons_of_mem _ hw')) hall

theorem dfsInv_empty : dfsInv emptyLT := by
  constructor
  · intro pr hpr
    cases hpr
  · intro i hi
    cases hi
  · intro i hi
    cases hi
  · intro i p hp
    have : emptyLT.nodeAt i = dfltLTNode := nodeAt_oob _ _ (Nat.zero_le _)
    rw [this] at hp
    exact Option.noConfusion hp
  · intro i v hv
    have : emptyLT.nodeAt i = dfltLTNode := nodeAt_oob _ _ (Nat.zero_le _)
    rw [this] at hv
    simp [dfltLTNode] at hv

theorem lookupId_exists_of_isSome {β : Type} {k : Int} {l : List (Int × β)}
    (h : (lookupId k l).isSome = true) : ∃ b, (k, b) ∈ l := by
  rcases ho : lookupId k l with _ | b
  · rw [ho] at h
    cases h
  · exact ⟨b, lookupId_mem ho⟩

/-- Everything the DFS stage guarantees about its output state. -/
theorem ltOfDFS_facts {root : Int} {g : DiGraph} {lt0 : lengauerTarjan}
    (h : ltOfDFS root g = .ok lt0) :
    dfsInv lt0 ∧ lookupId root lt0.indexOf = some 0 ∧ 0 < lt0.nodes.length ∧
    (lt0.nodeAt 0).node = root ∧
    (∀ id, Reach g root id → ltMem lt0 id) ∧
    (∀ id, ltMem lt0 id → Reach g root id) := by
  have hnone : lookupId root emptyLT.indexOf = none := rfl
  obtain ⟨hpost, hlook, hlen, hpar, hnode, hsucc, hinvp⟩ :=
    (dfs_ladder g (dfsFuel g)).1 root emptyLT lt0 h hnone
  have hlen0 : emptyLT.nodes.length = 0 := rfl
  have hclosed : ∀ id, ltMem lt0 id → ∀ w ∈ g.succ id, ltMem lt0 w := by
    intro id hm
    rcases hpost.2.2.2 id hm with hm1 | hm1
    · cases hm1
    · exact hm1
  refine ⟨hinvp dfsInv_empty, ?_, ?_, ?_, ?_, ?_⟩
  · rw [hlen0] at hlook
    exact hlook
  · rw [hlen0] at hlen
    exact hlen
  · rw [hlen0] at hnode
    exact hnode
  · intro id hr
    induction hr with
    | refl =>
      unfold ltMem
      rw [hlen0] at hlook
      rw [hlook]
      rfl
    | tail hab hbc ih =>
      exact hclosed _ ih _ hbc
  · have hall := (dfs_reach_ladder g (Reach g root)
      (fun a b ha hb => Reach.tail ha hb) (dfsFuel g)).1 root emptyLT lt0 h
      (Reach.refl root) (by intro pr hpr; cases hpr)
    intro id hm
    obtain ⟨b, hb⟩ := lookupId_exists_of_isSome hm
    exact hall (id, b) hb

/-- Deconstruction of a successful `Dominators` run into its stages. -/
theorem Dominators_ok_decomp {root : Int} {g : DiGraph} {t : DominatorTree}
    (h : Dominators root g = .ok t) :
    ∃ lt0 lt1 lt2 prs, ltOfDFS root g = .ok lt0 ∧
      lengauerTarjan.mainLoop (lt0.nodes.length - 1) lt0 = .ok lt1 ∧
      lt1.step4 = .ok lt2 ∧ lt2.domPairs = .ok prs ∧
      t = { root := root, dominatorOf := prs,
            dominatedBy := prs.map (fun pr => (pr.2, pr.1)) } := by
  unfold Dominators at h
  rcases h0 : ltOfDFS root g with e | lt0
  · rw [h0] at h
    exact Except.noConfusion h
  · rw [h0] at h
    rcases h1 : lengauerTarjan.mainLoop (lt0.nodes.length - 1) lt0 with e | lt1
    · simp only [h1] at h
      exact Except.noConfusion h
    · simp only [h1] at h
      rcases h2 : lt1.step4 with e | lt2
      · simp only [h2] at h
        exact Except.noConfusion h
      · simp only [h2] at h
        rcases h3 : lt2.domPairs with e | prs
        · simp only [h3] at h
          exact Except.noConfusion h
        · simp only [h3] at h
          refine ⟨lt0, lt1, lt2, prs, rfl, h1, h2, h3, ?_⟩
          injection h with h4
          exact h4.symm

theorem evalFrame_refl (lt : lengauerTarjan) : evalFrame lt lt :=
  ⟨rfl, rfl, fun _ => ⟨rfl, rfl, rfl, rfl, rfl, rfl⟩⟩

theorem evalFrame_trans {lt1 lt2 lt3 : lengauerTarjan} (h1 : evalFrame lt1 lt2)
    (h2 : evalFrame lt2 lt3) : evalFrame lt1 lt3 := by
  obtain ⟨a1, b1, c1⟩ := h1
  obtain ⟨a2, b2, c2⟩ := h2
  refine ⟨a2.trans a1, b2.trans b1, fun j => ?_⟩
  obtain ⟨x1, y1, z1, u1, v1, w1⟩ := c1 j
  obtain ⟨x2, y2, z2, u2, v2, w2⟩ := c2 j
  exact ⟨x2.trans x1, y2.trans y1, z2.trans z1, u2.trans u1, v2.trans v1, w2.trans w1⟩

theorem evalFrame_setAncestor (lt : lengauerTarjan) (i : Nat) (x : Option Nat) :
    evalFrame lt (lt.setAncestor i x) := by
  refine ⟨length_modifyAt _ _ _, rfl, fun j => ?_⟩
  rw [lengauerTarjan.setAncestor, nodeAt_modifyAt]
  split
  · next hc =>
    rw [hc.1]
    exact ⟨rfl, rfl, rfl, rfl, rfl, rfl⟩
  · exact ⟨rfl, rfl, rfl, rfl, rfl, rfl⟩

theorem evalFrame_setLabel (lt : lengauerTarjan) (i : Nat) (x : Nat) :
    evalFrame lt (lt.setLabel i x) := by
  refine ⟨length_modifyAt _ _ _, rfl, fun j => ?_⟩
  rw [lengauerTarjan.setLabel, nodeAt_modifyAt]
  split
  · next hc =>
    rw [hc.1]
    exact ⟨rfl, rfl, rfl, rfl, rfl, rfl⟩
  · exact ⟨rfl, rfl, rfl, rfl, rfl, rfl⟩

theorem setAncestor_ancestor (lt : lengauerTarjan) (i : Nat) (x : Option Nat) (j : Nat)
    (hj : j ≠ i) : ((lt.setAncestor i x).nodeAt j).ancestor = (lt.nodeAt j).ancestor := by
  rw [lengauerTarjan.setAncestor, nodeAt_modifyAt_ne _ _ _ _ hj]

theorem setLabel_ancestor (lt : lengauerTarjan) (i : Nat) (x : Nat) (j : Nat) :
    ((lt.setLabel i x).nodeAt j).ancestor = (lt.nodeAt j).ancestor := by
  rw [lengauerTarjan.setLabel, nodeAt_modifyAt]
  split
  · next hc =>
    rw [hc.1]
  · rfl

theorem setLabel_label_ne (lt : lengauerTarjan) (i : Nat) (x : Nat) (j : Nat) (hj : j ≠ i) :
    ((lt.setLabel i x).nodeAt j).label = (lt.nodeAt j).label := by
  rw [lengauerTarjan.setLabel, nodeAt_modifyAt_ne _ _ _ _ hj]

theorem setAncestor_label (lt : lengauerTarjan) (i : Nat) (x : Option Nat) (j : Nat) :
    ((lt.setAncestor i x).nodeAt j).label = (lt.nodeAt j).label := by
  rw [lengauerTarjan.setAncestor, nodeAt_modifyAt]
  split
  · next hc =>
    rw [hc.1]
  · rfl

theorem compress_spec : ∀ f v lt lt', lengauerTarjan.compress f v lt = .ok lt' →
    evalFrame lt lt' ∧
    (∀ j, (lt.nodeAt j).ancestor = none → lt'.nodeAt j = lt.nodeAt j) ∧
    (ancLT lt → ancLT lt') ∧
    (ancLT lt → labelLE lt → labelLE lt') := by
  intro f
  induction f with
  | zero =>
    intro v lt lt' h
    exact Except.noConfusion h
  | succ f ih =>
    intro v lt lt' h
    simp only [lengauerTarjan.compress] at h
    rcases ha : (lt.nodeAt v).ancestor with _ | a
    · rw [ha] at h
      exact Except.noConfusion h
    · simp only [ha] at h
      rcases ha2 : (lt.nodeAt a).ancestor with _ | a2
      · simp only [ha2] at h
        injection h with h1
        subst h1
        exact ⟨evalFrame_refl _, fun _ _ => rfl, fun hx => hx, fun _ hx => hx⟩
      · simp only [ha2] at h
        rcases hc : lengauerTarjan.compress f a lt with e | lt2
        · simp only [hc] at h
          exact Except.noConfusion h
        · simp only [hc] at h
          obtain ⟨hfr2, hun2, hanc2, hlab2⟩ := ih a lt lt2 hc
          have hvne : ∀ (P : Prop), ((lt.nodeAt v).ancestor = none → P) → True := fun _ _ => trivial
          -- the state written back by this call
          injection h with h1
          -- name the intermediate state
          rcases hifs : (if (lt2.nodeAt (lt2.nodeAt a).label).semi <
              (lt2.nodeAt (lt2.nodeAt v).label).semi
            then lt2.setLabel v (lt2.nodeAt a).label else lt2) with lt3
          have hfr3 : evalFrame lt2 lt3 := by
            rw [← hifs]
            split
            · exact evalFrame_setLabel _ _ _
            · exact evalFrame_refl _
          have hanc3 : ∀ j, (lt3.nodeAt j).ancestor = (lt2.nodeAt j).ancestor := by
            intro j
            rw [← hifs]
            split
            · exact setLabel_ancestor _ _ _ _
            · rfl
          have hlab3ne : ∀ j, j ≠ v → (lt3.nodeAt j).label = (lt2.nodeAt j).label := by
            intro j hj
            rw [← hifs]
            split
            · exact setLabel_label_ne _ _ _ _ hj
            · rfl
          have hlt' : lt' = lt3.setAncestor v (lt3.nodeAt a).ancestor := by
            rw [← h1, hifs]
          have havlt : ∀ hanc : ancLT lt, a < v := fun hanc => hanc v a ha
          constructor
          · rw [hlt']
            exact evalFrame_trans hfr2 (evalFrame_trans hfr3 (evalFrame_setAncestor _ _ _))
          constructor
          · intro j hj
            have hjv : j ≠ v := by
              intro he
              rw [he, ha] at hj
              exact Option.noConfusion hj
            have h2 := hun2 j hj
            have hj2 : (lt2.nodeAt j).ancestor = none := by
              rw [h2, hj]
            rw [hlt', lengauerTarjan.setAncestor, nodeAt_modifyAt_ne _ _ _ _ hjv, ← hifs]
            split
            · rw [lengauerTarjan.setLabel, nodeAt_modifyAt_ne _ _ _ _ hjv]
              exact h2
            · exact h2
          constructor
          · intro hanc
            have hanc2' := hanc2 hanc
            intro j x hx
            by_cases hjv : j = v
            · subst hjv
              rw [hlt'] at hx
              rw [lengauerTarjan.setAncestor, nodeAt_modifyAt] at hx
              by_cases hvlen : j < lt3.nodes.length
              · rw [if_pos ⟨rfl, hvlen⟩] at hx
                have hxa : (lt3.nodeAt a).ancestor = some x := hx
                rw [hanc3 a] at hxa
                have h5 : x < a := hanc2' a x hxa
                exact Nat.lt_trans h5 (havlt hanc)
              · rw [if_neg (by intro hcon; exact hvlen hcon.2)] at hx
                rw [hanc3 j] at hx
                exact hanc2' j x hx
            · rw [hlt', setAncestor_ancestor _ _ _ _ hjv, hanc3 j] at hx
              exact hanc2' j x hx
          · intro hanc hlab
            have hlab2' := hlab2 hanc hlab
            intro j
            by_cases hjv : j = v
            · subst hjv
              rw [hlt', setAncestor_label, ← hifs]
              split
              · rw [lengauerTarjan.setLabel, nodeAt_modifyAt]
                by_cases hvlen : j < lt2.nodes.length
                · rw [if_pos ⟨rfl, hvlen⟩]
                  have h5 : (lt2.nodeAt a).label ≤ a := hlab2' a
                  exact Nat.le_trans h5 (Nat.le_of_lt (havlt hanc))
                · rw [if_neg (by intro hcon; exact hvlen hcon.2)]
                  exact hlab2' j
              · exact hlab2' j
            · rw [hlt', setAncestor_label, hlab3ne j hjv]
              exact hlab2' j

theorem eval_spec {f v : Nat} {lt lt' : lengauerTarjan} {u : Nat}
    (h : lengauerTarjan.eval f v lt = .ok (u, lt')) :
    evalFrame lt lt' ∧
    (∀ j, (lt.nodeAt j).ancestor = none → lt'.nodeAt j = lt.nodeAt j) ∧
    (ancLT lt → ancLT lt') ∧
    (ancLT lt → labelLE lt → labelLE lt') ∧
    (ancLT lt → labelLE lt → u ≤ v) := by
  unfold lengauerTarjan.eval at h
  rcases ha : (lt.nodeAt v).ancestor with _ | a
  · rw [ha] at h
    injection h with h1
    injection h1 with h2 h3
    subst h3
    subst h2
    exact ⟨evalFrame_refl _, fun _ _ => rfl, fun hx => hx, fun _ hx => hx,
      fun _ _ => Nat.le_refl _⟩
  · rw [ha] at h
    rcases hc : lengauerTarjan.compress f v lt with e | lt2
    · rw [hc] at h
      exact Except.noConfusion h
    · rw [hc] at h
      injection h with h1
      injection h1 with h2 h3
      subst h3
      obtain ⟨hfr, hun, hanc, hlab⟩ := compress_spec f v lt lt2 hc
      refine ⟨hfr, hun, hanc, hlab, ?_⟩
      intro hanc0 hlab0
      rw [← h2]
      exact hlab hanc0 hlab0 v

theorem sameGraphFields_refl (lt : lengauerTarjan) : sameGraphFields lt lt :=
  ⟨rfl, rfl, fun _ => ⟨rfl, rfl, rfl⟩⟩

theorem sameGraphFields_trans {lt1 lt2 lt3 : lengauerTarjan} (h1 : sameGraphFields lt1 lt2)
    (h2 : sameGraphFields lt2 lt3) : sameGraphFields lt1 lt3 := by
  obtain ⟨a1, b1, c1⟩ := h1
  obtain ⟨a2, b2, c2⟩ := h2
  refine ⟨a2.trans a1, b2.trans b1, fun j => ?_⟩
  obtain ⟨x1, y1, z1⟩ := c1 j
  obtain ⟨x2, y2, z2⟩ := c2 j
  exact ⟨x2.trans x1, y2.trans y1, z2.trans z1⟩

theorem sameGraphFields_of_evalFrame {lt lt' : lengauerTarjan} (h : evalFrame lt lt') :
    sameGraphFields lt lt' := by
  obtain ⟨a, b, c⟩ := h
  exact ⟨a, b, fun j => ⟨(c j).1, (c j).2.1, (c j).2.2.1⟩⟩

theorem sameGraphFields_modifyAt (lt : lengauerTarjan) (i : Nat) (f : ltNode → ltNode)
    (hf : ∀ nd, (f nd).node = nd.node ∧ (f nd).parent = nd.parent ∧ (f nd).pred = nd.pred) :
    sameGraphFields lt (lt.modifyAt i f) := by
  refine ⟨length_modifyAt _ _ _, rfl, fun j => ?_⟩
  rw [nodeAt_modifyAt]
  split
  · next hc =>
    rw [hc.1]
    exact hf (lt.nodeAt i)
  · exact ⟨rfl, rfl, rfl⟩

theorem parentInv_same {lt lt' : lengauerTarjan} (h : sameGraphFields lt lt')
    (hp : parentInv lt) : parentInv lt' := by
  intro i p hpar
  rw [(h.2.2 i).2.1] at hpar
  rw [(h.2.2 i).2.2]
  exact hp i p hpar

theorem domLT_of_eq {lt lt' : lengauerTarjan} (h : ∀ j, (lt'.nodeAt j).dom = (lt.nodeAt j).dom)
    (hd : domLT lt) : domLT lt' := by
  intro j d hdj
  rw [h j] at hdj
  exact hd j d hdj

theorem bucketLT_of_eq {lt lt' : lengauerTarjan}
    (h : ∀ j, (lt'.nodeAt j).bucket = (lt.nodeAt j).bucket) (hb : bucketLT lt) : bucketLT lt' := by
  intro b v hv
  rw [h b] at hv
  exact hb b v hv


theorem ancLT_of_eq {lt lt' : lengauerTarjan}
    (h : ∀ j, (lt'.nodeAt j).ancestor = (lt.nodeAt j).ancestor) (ha : ancLT lt) : ancLT lt' := by
  intro j a haj
  rw [h j] at haj
  exact ha j a haj

theorem labelLE_of_eq {lt lt' : lengauerTarjan}
    (h : ∀ j, (lt'.nodeAt j).label = (lt.nodeAt j).label) (hl : labelLE lt) : labelLE lt' := by
  intro j
  rw [h j]
  exact hl j

theorem eval_of_ancestor_none {f v : Nat} {lt : lengauerTarjan}
    (hn : (lt.nodeAt v).ancestor = none) : lengauerTarjan.eval f v lt = .ok (v, lt) := by
  unfold lengauerTarjan.eval
  rw [hn]

theorem setSemi_nodeAt_ne (lt : lengauerTarjan) (i s j : Nat) (hj : j ≠ i) :
    (lt.setSemi i s).nodeAt j = lt.nodeAt j :=
  nodeAt_modifyAt_ne _ _ _ _ hj

theorem setSemi_unchanged (lt : lengauerTarjan) (i s : Nat) :
    ∀ j, ((lt.setSemi i s).nodeAt j).node = (lt.nodeAt j).node ∧
      ((lt.setSemi i s).nodeAt j).parent = (lt.nodeAt j).parent ∧
      ((lt.setSemi i s).nodeAt j).pred = (lt.nodeAt j).pred ∧
      ((lt.setSemi i s).nodeAt j).ancestor = (lt.nodeAt j).ancestor ∧
      ((lt.setSemi i s).nodeAt j).label = (lt.nodeAt j).label ∧
      ((lt.setSemi i s).nodeAt j).dom = (lt.nodeAt j).dom ∧
      ((lt.setSemi i s).nodeAt j).bucket = (lt.nodeAt j).bucket := by
  intro j
  rw [lengauerTarjan.setSemi, nodeAt_modifyAt]
  split
  · next hc =>
    rw [hc.1]
    exact ⟨rfl, rfl, rfl, rfl, rfl, rfl, rfl⟩
  · exact ⟨rfl, rfl, rfl, rfl, rfl, rfl, rfl⟩

theorem semiStep_spec {i : Nat} {lt : lengauerTarjan} {v : Nat} {lt' : lengauerTarjan}
    (h : lengauerTarjan.semiStep i lt v = .ok lt') :
    sameGraphFields lt lt' ∧
    (∀ j, (lt'.nodeAt j).dom = (lt.nodeAt j).dom) ∧
    (∀ j, (lt'.nodeAt j).bucket = (lt.nodeAt j).bucket) ∧
    (∀ j, j ≠ i → (lt'.nodeAt j).semi = (lt.nodeAt j).semi) ∧
    ((lt'.nodeAt i).semi ≤ (lt.nodeAt i).semi) ∧
    (∀ j, (lt.nodeAt j).ancestor = none → (lt'.nodeAt j).ancestor = none) ∧
    (ancLT lt → ancLT lt') ∧
    (ancLT lt → labelLE lt → labelLE lt') ∧
    ((lt.nodeAt v).ancestor = none → i < lt.nodes.length →
      (lt'.nodeAt i).semi ≤ (lt.nodeAt v).semi) := by
  unfold lengauerTarjan.semiStep at h
  rcases he : lengauerTarjan.eval lt.nodes.length v lt with e | pr
  · rw [he] at h
    exact Except.noConfusion h
  · obtain ⟨u, lt1⟩ := pr
    simp only [he] at h
    obtain ⟨hfr, hun, hanc, hlab, hule⟩ := eval_spec he
    split at h
    · next hcond =>
      injection h with h1
      have hframe1 : ∀ j, (lt1.nodeAt j).semi = (lt.nodeAt j).semi :=
        fun j => (hfr.2.2 j).2.2.2.1
      have hlen1 : lt1.nodes.length = lt.nodes.length := hfr.1
      constructor
      · refine sameGraphFields_trans (sameGraphFields_of_evalFrame hfr) ?_
        rw [← h1]
        exact sameGraphFields_modifyAt _ _ _ (fun nd => ⟨rfl, rfl, rfl⟩)
      constructor
      · intro j
        rw [← h1, (setSemi_unchanged _ _ _ j).2.2.2.2.2.1]
        exact (hfr.2.2 j).2.2.2.2.1
      constructor
      · intro j
        rw [← h1, (setSemi_unchanged _ _ _ j).2.2.2.2.2.2]
        exact (hfr.2.2 j).2.2.2.2.2
      constructor
      · intro j hj
        rw [← h1, (setSemi_nodeAt_ne _ _ _ _ hj)]
        exact hframe1 j
      constructor
      · rw [← h1, lengauerTarjan.setSemi, nodeAt_modifyAt]
        split
        · next hc =>
          show (lt1.nodeAt u).semi ≤ (lt.nodeAt i).semi
          rw [hframe1 u]
          rw [hframe1 u, hframe1 i] at hcond
          exact Nat.le_of_lt hcond
        · exact Nat.le_of_eq (hframe1 i)
      constructor
      · intro j hj
        have h2 := hun j hj
        have h3 : (lt1.nodeAt j).ancestor = none := by rw [h2]; exact hj
        rw [← h1, (setSemi_unchanged _ _ _ j).2.2.2.1]
        exact h3
      constructor
      · intro ha
        refine ancLT_of_eq ?_ (hanc ha)
        intro j
        rw [← h1, (setSemi_unchanged _ _ _ j).2.2.2.1]
      constructor
      · intro ha hl
        refine labelLE_of_eq ?_ (hlab ha hl)
        intro j
        rw [← h1, (setSemi_unchanged _ _ _ j).2.2.2.2.1]
      · intro hn hilen
        have heq : lengauerTarjan.eval lt.nodes.length v lt = .ok (v, lt) :=
          eval_of_ancestor_none hn
        rw [heq] at he
        injection he with he1
        injection he1 with he2 he3
        subst he2
        subst he3
        rw [← h1, lengauerTarjan.setSemi, nodeAt_modifyAt, if_pos ⟨rfl, hilen⟩]
    · next hcond =>
      injection h with h1
      subst h1
      refine ⟨sameGraphFields_of_evalFrame hfr, fun j => (hfr.2.2 j).2.2.2.2.1,
        fun j => (hfr.2.2 j).2.2.2.2.2, fun j _ => (hfr.2.2 j).2.2.2.1,
        Nat.le_of_eq ((hfr.2.2 i).2.2.2.1), ?_, hanc, hlab, ?_⟩
      · intro j hj
        have h2 := hun j hj
        rw [h2]
        exact hj
      · intro hn _
        have heq : lengauerTarjan.eval lt.nodes.length v lt = .ok (v, lt) :=
          eval_of_ancestor_none hn
        rw [heq] at he
        injection he with he1
        injection he1 with he2 he3
        subst he2
        subst he3
        exact Nat.le_of_not_lt hcond

theorem semiFold_spec {i : Nat} : ∀ (vs : List Nat) (lt lt' : lengauerTarjan),
    List.foldlM (lengauerTarjan.semiStep i) lt vs = .ok lt' →
    sameGraphFields lt lt' ∧
    (∀ j, (lt'.nodeAt j).dom = (lt.nodeAt j).dom) ∧
    (∀ j, (lt'.nodeAt j).bucket = (lt.nodeAt j).bucket) ∧
    (∀ j, j ≠ i → (lt'.nodeAt j).semi = (lt.nodeAt j).semi) ∧
    ((lt'.nodeAt i).semi ≤ (lt.nodeAt i).semi) ∧
    (∀ j, (lt.nodeAt j).ancestor = none → (lt'.nodeAt j).ancestor = none) ∧
    ((ancLT lt ∧ labelLE lt) → (ancLT lt' ∧ labelLE lt')) := by
  intro vs
  induction vs with
  | nil =>
    intro lt lt' h
    injection h with h1
    subst h1
    exact ⟨sameGraphFields_refl _, fun _ => rfl, fun _ => rfl, fun _ _ => rfl, Nat.le_refl _,
      fun _ hj => hj, fun hx => hx⟩
  | cons v vs ih =>
    intro lt lt' h
    rw [List.foldlM_cons] at h
    rcases hs : lengauerTarjan.semiStep i lt v with e | lt1
    · rw [hs] at h
      exact Except.noConfusion h
    · rw [hs] at h
      obtain ⟨f1, d1, b1, sn1, sl1, an1, il1⟩ := semiStep_spec hs
      obtain ⟨f2, d2, b2, sn2, sl2, an2, il2⟩ := ih lt1 lt' h
      refine ⟨sameGraphFields_trans f1 f2, fun j => (d2 j).trans (d1 j),
        fun j => (b2 j).trans (b1 j), fun j hj => (sn2 j hj).trans (sn1 j hj),
        Nat.le_trans sl2 sl1, fun j hj => an2 j (an1 j hj), ?_⟩
      intro hx
      exact il2 ⟨il1.1 hx.1, il1.2.1 hx.1 hx.2⟩

theorem semiFold_parent_bound {i p : Nat} : ∀ (vs : List Nat) (lt lt' : lengauerTarjan),
    List.foldlM (lengauerTarjan.semiStep i) lt vs = .ok lt' →
    p ∈ vs → p ≠ i → i < lt.nodes.length →
    (lt.nodeAt p).ancestor = none → (lt.nodeAt p).semi = p →
    (lt'.nodeAt i).semi ≤ p := by
  intro vs
  induction vs with
  | nil =>
    intro lt lt' h hmem
    cases hmem
  | cons v vs ih =>
    intro lt lt' h hmem hpi hilen hanc hsemi
    rw [List.foldlM_cons] at h
    rcases hs : lengauerTarjan.semiStep i lt v with e | lt1
    · rw [hs] at h
      exact Except.noConfusion h
    · rw [hs] at h
      obtain ⟨f1, d1, b1, sn1, sl1, an1, il1⟩ := semiStep_spec hs
      rcases List.mem_cons.1 hmem with hv | hv
      · subst hv
        have hstep : (lt1.nodeAt i).semi ≤ (lt.nodeAt p).semi := il1.2.2 hanc hilen
        rw [hsemi] at hstep
        obtain ⟨f2, d2, b2, sn2, sl2, an2, il2⟩ := semiFold_spec vs lt1 lt' h
        exact Nat.le_trans sl2 hstep
      · refine ih lt1 lt' h hv hpi ?_ ?_ ?_
        · rw [f1.1]
          exact hilen
        · exact an1 p hanc
        · rw [sn1 p hpi]
          exact hsemi

theorem drainStep_spec {p : Nat} {lt : lengauerTarjan} {v : Nat} {lt' : lengauerTarjan}
    (h : lengauerTarjan.drainStep p lt v = .ok lt') :
    sameGraphFields lt lt' ∧
    (∀ j, (lt'.nodeAt j).semi = (lt.nodeAt j).semi) ∧
    (∀ j, (lt'.nodeAt j).bucket = (lt.nodeAt j).bucket) ∧
    (∀ j, j ≠ v → (lt'.nodeAt j).dom = (lt.nodeAt j).dom) ∧
    (∀ j, (lt.nodeAt j).ancestor = none → (lt'.nodeAt j).ancestor = none) ∧
    ((ancLT lt ∧ labelLE lt) → (ancLT lt' ∧ labelLE lt')) ∧
    (ancLT lt → labelLE lt → p < v → domLT lt → domLT lt') := by
  unfold lengauerTarjan.drainStep at h
  rcases he : lengauerTarjan.eval lt.nodes.length v lt with e | pr
  · rw [he] at h
    exact Except.noConfusion h
  · obtain ⟨u, lt1⟩ := pr
    simp only [he] at h
    obtain ⟨hfr, hun, hanc, hlab, hule⟩ := eval_spec he
    have hsetfacts : ∀ (d : Option Nat) (j : Nat),
        ((lt1.setDom v d).nodeAt j).node = (lt1.nodeAt j).node ∧
        ((lt1.setDom v d).nodeAt j).parent = (lt1.nodeAt j).parent ∧
        ((lt1.setDom v d).nodeAt j).pred = (lt1.nodeAt j).pred ∧
        ((lt1.setDom v d).nodeAt j).semi = (lt1.nodeAt j).semi ∧
        ((lt1.setDom v d).nodeAt j).ancestor = (lt1.nodeAt j).ancestor ∧
        ((lt1.setDom v d).nodeAt j).label = (lt1.nodeAt j).label ∧
        ((lt1.setDom v d).nodeAt j).bucket = (lt1.nodeAt j).bucket := by
      intro d j
      rw [lengauerTarjan.setDom, nodeAt_modifyAt]
      split
      · next hc =>
        rw [hc.1]
        exact ⟨rfl, rfl, rfl, rfl, rfl, rfl, rfl⟩
      · exact ⟨rfl, rfl, rfl, rfl, rfl, rfl, rfl⟩
    have hdomne : ∀ (d : Option Nat) (j : Nat), j ≠ v →
        ((lt1.setDom v d).nodeAt j).dom = (lt1.nodeAt j).dom := by
      intro d j hj
      rw [lengauerTarjan.setDom, nodeAt_modifyAt_ne _ _ _ _ hj]
    have hdomself : ∀ (d : Option Nat), v < lt1.nodes.length →
        ((lt1.setDom v d).nodeAt v).dom = d := by
      intro d hv
      rw [lengauerTarjan.setDom, nodeAt_modifyAt_self _ _ _ hv]
    have hcommon : ∀ (d : Option Nat), lt' = lt1.setDom v d →
        sameGraphFields lt lt' ∧
        (∀ j, (lt'.nodeAt j).semi = (lt.nodeAt j).semi) ∧
        (∀ j, (lt'.nodeAt j).bucket = (lt.nodeAt j).bucket) ∧
        (∀ j, j ≠ v → (lt'.nodeAt j).dom = (lt.nodeAt j).dom) ∧
        (∀ j, (lt.nodeAt j).ancestor = none → (lt'.nodeAt j).ancestor = none) ∧
        ((ancLT lt ∧ labelLE lt) → (ancLT lt' ∧ labelLE lt')) := by
      intro d hd
      subst hd
      refine ⟨?_, ?_, ?_, ?_, ?_, ?_⟩
      · refine sameGraphFields_trans (sameGraphFields_of_evalFrame hfr) ?_
        exact sameGraphFields_modifyAt _ _ _ (fun nd => ⟨rfl, rfl, rfl⟩)
      · intro j
        rw [(hsetfacts d j).2.2.2.1]
        exact (hfr.2.2 j).2.2.2.1
      · intro j
        rw [(hsetfacts d j).2.2.2.2.2.2]
        exact (hfr.2.2 j).2.2.2.2.2
      · intro j hj
        rw [hdomne d j hj]
        exact (hfr.2.2 j).2.2.2.2.1
      · intro j hj
        rw [(hsetfacts d j).2.2.2.2.1]
        have h2 := hun j hj
        rw [h2]
        exact hj
      · intro hx
        refine ⟨ancLT_of_eq (fun j => (hsetfacts d j).2.2.2.2.1) (hanc hx.1),
          labelLE_of_eq (fun j => (hsetfacts d j).2.2.2.2.2.1) (hlab hx.1 hx.2)⟩
    split at h
    · next hcond =>
      injection h with h1
      have h1' := h1.symm
      obtain ⟨c1, c2, c3, c4, c5, c6⟩ := hcommon (some u) h1'
      refine ⟨c1, c2, c3, c4, c5, c6, ?_⟩
      intro ha hl hpv hd
      have huv : u < v := by
        have hle : u ≤ v := hule ha hl
        rcases Nat.lt_or_ge u v with h2 | h2
        · exact h2
        · have : u = v := Nat.le_antisymm hle h2
          rw [this] at hcond
          exact absurd hcond (Nat.lt_irrefl _)
      intro j dj hdj
      by_cases hjv : j = v
      · subst hjv
        by_cases hvlen : j < lt1.nodes.length
        · rw [h1', hdomself (some u) hvlen] at hdj
          injection hdj with h2
          rw [← h2]
          exact huv
        · rw [h1', lengauerTarjan.setDom, nodeAt_modifyAt_oob _ _ _ hvlen] at hdj
          have h3 : (lt1.nodeAt j).dom = (lt.nodeAt j).dom := (hfr.2.2 j).2.2.2.2.1
          rw [h3] at hdj
          exact hd j dj hdj
      · rw [c4 j hjv] at hdj
        exact hd j dj hdj
    · next hcond =>
      injection h with h1
      have h1' := h1.symm
      obtain ⟨c1, c2, c3, c4, c5, c6⟩ := hcommon (some p) h1'
      refine ⟨c1, c2, c3, c4, c5, c6, ?_⟩
      intro ha hl hpv hd
      intro j dj hdj
      by_cases hjv : j = v
      · subst hjv
        by_cases hvlen : j < lt1.nodes.length
        · rw [h1', hdomself (some p) hvlen] at hdj
          injection hdj with h2
          rw [← h2]
          exact hpv
        · rw [h1', lengauerTarjan.setDom, nodeAt_modifyAt_oob _ _ _ hvlen] at hdj
          have h3 : (lt1.nodeAt j).dom = (lt.nodeAt j).dom := (hfr.2.2 j).2.2.2.2.1
          rw [h3] at hdj
          exact hd j dj hdj
      · rw [c4 j hjv] at hdj
        exact hd j dj hdj

theorem drainFold_spec {p : Nat} : ∀ (bs : List Nat) (lt lt' : lengauerTarjan),
    List.foldlM (lengauerTarjan.drainStep p) lt bs = .ok lt' →
    (∀ v ∈ bs, p < v) →
    sameGraphFields lt lt' ∧
    (∀ j, (lt'.nodeAt j).semi = (lt.nodeAt j).semi) ∧
    (∀ j, (lt'.nodeAt j).bucket = (lt.nodeAt j).bucket) ∧
    (∀ j, (lt.nodeAt j).ancestor = none → (lt'.nodeAt j).ancestor = none) ∧
    ((ancLT lt ∧ labelLE lt ∧ domLT lt) → (ancLT lt' ∧ labelLE lt' ∧ domLT lt')) := by
  intro bs
  induction bs with
  | nil =>
    intro lt lt' h hb
    injection h with h1
    subst h1
    exact ⟨sameGraphFields_refl _, fun _ => rfl, fun _ => rfl, fun _ hj => hj, fun hx => hx⟩
  | cons v bs ih =>
    intro lt lt' h hb
    rw [List.foldlM_cons] at h
    rcases hs : lengauerTarjan.drainStep p lt v with e | lt1
    · rw [hs] at h
      exact Except.noConfusion h
    · rw [hs] at h
      obtain ⟨f1, s1, b1, d1, a1, il1, dl1⟩ := drainStep_spec hs
      obtain ⟨f2, s2, b2, a2, il2⟩ := ih lt1 lt' h (fun v' hv' => hb v' (List.mem_cons_of_mem _ hv'))
      refine ⟨sameGraphFields_trans f1 f2, fun j => (s2 j).trans (s1 j),
        fun j => (b2 j).trans (b1 j), fun j hj => a2 j (a1 j hj), ?_⟩
      intro hx
      refine il2 ⟨(il1 ⟨hx.1, hx.2.1⟩).1, (il1 ⟨hx.1, hx.2.1⟩).2,
        dl1 hx.1 hx.2.1 (hb v (List.mem_cons_self _ _)) hx.2.2⟩

theorem pushBucket_unchanged (lt : lengauerTarjan) (i v : Nat) :
    ∀ j, ((lt.pushBucket i v).nodeAt j).node = (lt.nodeAt j).node ∧
      ((lt.pushBucket i v).nodeAt j).parent = (lt.nodeAt j).parent ∧
      ((lt.pushBucket i v).nodeAt j).pred = (lt.nodeAt j).pred ∧
      ((lt.pushBucket i v).nodeAt j).semi = (lt.nodeAt j).semi ∧
      ((lt.pushBucket i v).nodeAt j).ancestor = (lt.nodeAt j).ancestor ∧
      ((lt.pushBucket i v).nodeAt j).label = (lt.nodeAt j).label ∧
      ((lt.pushBucket i v).nodeAt j).dom = (lt.nodeAt j).dom := by
  intro j
  rw [lengauerTarjan.pushBucket, nodeAt_modifyAt]
  split
  · next hc =>
    rw [hc.1]
    exact ⟨rfl, rfl, rfl, rfl, rfl, rfl, rfl⟩
  · exact ⟨rfl, rfl, rfl, rfl, rfl, rfl, rfl⟩

theorem pushBucket_bucket_ne (lt : lengauerTarjan) (i v j : Nat) (hj : j ≠ i) :
    ((lt.pushBucket i v).nodeAt j).bucket = (lt.nodeAt j).bucket := by
  rw [lengauerTarjan.pushBucket, nodeAt_modifyAt_ne _ _ _ _ hj]

theorem pushBucket_bucket_self (lt : lengauerTarjan) (i v : Nat) (hi : i < lt.nodes.length) :
    ((lt.pushBucket i v).nodeAt i).bucket = (lt.nodeAt i).bucket ++ [v] := by
  rw [lengauerTarjan.pushBucket, nodeAt_modifyAt_self _ _ _ hi]

theorem setBucket_unchanged (lt : lengauerTarjan) (i : Nat) (b : List Nat) :
    ∀ j, ((lt.setBucket i b).nodeAt j).node = (lt.nodeAt j).node ∧
      ((lt.setBucket i b).nodeAt j).parent = (lt.nodeAt j).parent ∧
      ((lt.setBucket i b).nodeAt j).pred = (lt.nodeAt j).pred ∧
      ((lt.setBucket i b).nodeAt j).semi = (lt.nodeAt j).semi ∧
      ((lt.setBucket i b).nodeAt j).ancestor = (lt.nodeAt j).ancestor ∧
      ((lt.setBucket i b).nodeAt j).label = (lt.nodeAt j).label ∧
      ((lt.setBucket i b).nodeAt j).dom = (lt.nodeAt j).dom := by
  intro j
  rw [lengauerTarjan.setBucket, nodeAt_modifyAt]
  split
  · next hc =>
    rw [hc.1]
    exact ⟨rfl, rfl, rfl, rfl, rfl, rfl, rfl⟩
  · exact ⟨rfl, rfl, rfl, rfl, rfl, rfl, rfl⟩

theorem setBucket_bucket_ne (lt : lengauerTarjan) (i : Nat) (b : List Nat) (j : Nat)
    (hj : j ≠ i) : ((lt.setBucket i b).nodeAt j).bucket = (lt.nodeAt j).bucket := by
  rw [lengauerTarjan.setBucket, nodeAt_modifyAt_ne _ _ _ _ hj]

theorem setBucket_bucket_self (lt : lengauerTarjan) (i : Nat) (b : List Nat)
    (hi : i < lt.nodes.length) : ((lt.setBucket i b).nodeAt i).bucket = b := by
  rw [lengauerTarjan.setBucket, nodeAt_modifyAt_self _ _ _ hi]

theorem setAncestor_unchanged (lt : lengauerTarjan) (i : Nat) (x : Option Nat) :
    ∀ j, ((lt.setAncestor i x).nodeAt j).node = (lt.nodeAt j).node ∧
      ((lt.setAncestor i x).nodeAt j).parent = (lt.nodeAt j).parent ∧
      ((lt.setAncestor i x).nodeAt j).pred = (lt.nodeAt j).pred ∧
      ((lt.setAncestor i x).nodeAt j).semi = (lt.nodeAt j).semi ∧
      ((lt.setAncestor i x).nodeAt j).label = (lt.nodeAt j).label ∧
      ((lt.setAncestor i x).nodeAt j).dom = (lt.nodeAt j).dom ∧
      ((lt.setAncestor i x).nodeAt j).bucket = (lt.nodeAt j).bucket := by
  intro j
  rw [lengauerTarjan.setAncestor, nodeAt_modifyAt]
  split
  · next hc =>
    rw [hc.1]
    exact ⟨rfl, rfl, rfl, rfl, rfl, rfl, rfl⟩
  · exact ⟨rfl, rfl, rfl, rfl, rfl, rfl, rfl⟩

theorem setAncestor_ancestor_self (lt : lengauerTarjan) (i : Nat) (x : Option Nat)
    (hi : i < lt.nodes.length) : ((lt.setAncestor i x).nodeAt i).ancestor = x := by
  rw [lengauerTarjan.setAncestor, nodeAt_modifyAt_self _ _ _ hi]

theorem iter_spec {lt : lengauerTarjan} {k : Nat} {lt' : lengauerTarjan}
    (h : lt.iter k = .ok lt') (hk1 : 1 ≤ k) (hk2 : k < lt.nodes.length)
    (hinv : loopInv k lt) :
    loopInv (k - 1) lt' ∧ sameGraphFields lt lt' := by
  obtain ⟨hanc, hlab, hdom, hbuc, hpar, hunp⟩ := hinv
  unfold lengauerTarjan.iter at h
  rcases h1 : List.foldlM (lengauerTarjan.semiStep k) lt (lt.nodeAt k).pred with e | lt1
  · rw [h1] at h
    exact Except.noConfusion h
  · simp only [h1] at h
    obtain ⟨f1, d1, b1, sn1, sl1, an1, il1⟩ := semiFold_spec _ lt lt1 h1
    have hanc1 : ancLT lt1 := (il1 ⟨hanc, hlab⟩).1
    have hlab1 : labelLE lt1 := (il1 ⟨hanc, hlab⟩).2
    have hdom1 : domLT lt1 := domLT_of_eq d1 hdom
    have hbuc1 : bucketLT lt1 := bucketLT_of_eq b1 hbuc
    have hpar1 : parentInv lt1 := parentInv_same f1 hpar
    have hlen1 : lt1.nodes.length = lt.nodes.length := f1.1
    set LT2 := lt1.pushBucket (lt1.nodeAt k).semi k with hLT2
    set LT3 := LT2.link (LT2.nodeAt k).parent k with hLT3
    have hLT3' : LT3 = LT2.setAncestor k (LT2.nodeAt k).parent := rfl
    have hlen2 : LT2.nodes.length = lt1.nodes.length := by
      rw [hLT2, lengauerTarjan.pushBucket, length_modifyAt]
    have hlen3 : LT3.nodes.length = LT2.nodes.length := by
      rw [hLT3', lengauerTarjan.setAncestor, length_modifyAt]
    have hparent_k : (LT3.nodeAt k).parent = (lt.nodeAt k).parent := by
      rw [hLT3', (setAncestor_unchanged _ _ _ k).2.1, hLT2,
        (pushBucket_unchanged _ _ _ k).2.1, (f1.2.2 k).2.1]
    rcases hp : (LT3.nodeAt k).parent with _ | p
    · rw [hp] at h
      exact Except.noConfusion h
    · simp only [hp] at h
      have hpk : (lt.nodeAt k).parent = some p := by
        rw [← hparent_k, hp]
      obtain ⟨hplt, hpmem⟩ := hpar k p hpk
      have hsb : (lt1.nodeAt k).semi ≤ p := by
        refine semiFold_parent_bound _ lt lt1 h1 hpmem (Nat.ne_of_lt hplt) hk2 ?_ ?_
        · exact (hunp p (Nat.le_of_lt hplt) (Nat.lt_trans hplt hk2)).2
        · exact (hunp p (Nat.le_of_lt hplt) (Nat.lt_trans hplt hk2)).1
      have hsk : (lt1.nodeAt k).semi < k := Nat.lt_of_le_of_lt hsb hplt
      have hslen : (lt1.nodeAt k).semi < lt1.nodes.length := by
        rw [hlen1]
        exact Nat.lt_trans hsk hk2
      -- invariants at LT2
      have hbuc2 : bucketLT LT2 := by
        intro b v hv
        by_cases hbs : b = (lt1.nodeAt k).semi
        · subst hbs
          rw [hLT2, pushBucket_bucket_self _ _ _ hslen] at hv
          rcases List.mem_append.1 hv with hm | hm
          · exact hbuc1 _ v hm
          · simp at hm
            rw [hm]
            exact hsk
        · rw [hLT2, pushBucket_bucket_ne _ _ _ _ hbs] at hv
          exact hbuc1 b v hv
      have hanc2eq : ∀ j, (LT2.nodeAt j).ancestor = (lt1.nodeAt j).ancestor :=
        fun j => (pushBucket_unchanged _ _ _ j).2.2.2.2.1
      have hsemi2eq : ∀ j, (LT2.nodeAt j).semi = (lt1.nodeAt j).semi :=
        fun j => (pushBucket_unchanged _ _ _ j).2.2.2.1
      -- invariants at LT3
      have hklen2 : k < LT2.nodes.length := by
        rw [hlen2, hlen1]
        exact hk2
      have hanc3 : ancLT LT3 := by
        intro j a haj
        by_cases hjk : j = k
        · subst hjk
          rw [hLT3', setAncestor_ancestor_self _ _ _ hklen2] at haj
          rw [hLT2, (pushBucket_unchanged _ _ _ j).2.1, (f1.2.2 j).2.1, hpk] at haj
          injection haj with h2
          rw [← h2]
          exact hplt
        · rw [hLT3', setAncestor_ancestor _ _ _ _ hjk, hanc2eq j] at haj
          exact hanc1 j a haj
      have hlab3 : labelLE LT3 := by
        refine labelLE_of_eq ?_ hlab1
        intro j
        rw [hLT3', setAncestor_label, hLT2, (pushBucket_unchanged _ _ _ j).2.2.2.2.2.1]
      have hdom3 : domLT LT3 := by
        refine domLT_of_eq ?_ hdom1
        intro j
        rw [hLT3', (setAncestor_unchanged _ _ _ j).2.2.2.2.2.1, hLT2,
          (pushBucket_unchanged _ _ _ j).2.2.2.2.2.2]
      have hbuc3 : bucketLT LT3 := by
        refine bucketLT_of_eq ?_ hbuc2
        intro j
        rw [hLT3', (setAncestor_unchanged _ _ _ j).2.2.2.2.2.2]
      have hg2 : sameGraphFields lt1 LT2 := by
        rw [hLT2]
        exact sameGraphFields_modifyAt _ _ _ (fun nd => ⟨rfl, rfl, rfl⟩)
      have hg3 : sameGraphFields LT2 LT3 := by
        rw [hLT3']
        exact sameGraphFields_modifyAt _ _ _ (fun nd => ⟨rfl, rfl, rfl⟩)
      have hpar3 : parentInv LT3 := parentInv_same hg3 (parentInv_same hg2 hpar1)
      -- the bucket being drained
      have hbs' : ∀ v ∈ (LT3.nodeAt p).bucket, p < v := fun v hv => hbuc3 p v hv
      -- invariants at LT4
      have hg4 : sameGraphFields LT3 (LT3.setBucket p []) :=
        sameGraphFields_modifyAt _ _ _ (fun nd => ⟨rfl, rfl, rfl⟩)
      have hanc4 : ancLT (LT3.setBucket p []) := by
        refine ancLT_of_eq ?_ hanc3
        intro j
        rw [(setBucket_unchanged _ _ _ j).2.2.2.2.1]
      have hlab4 : labelLE (LT3.setBucket p []) := by
        refine labelLE_of_eq ?_ hlab3
        intro j
        rw [(setBucket_unchanged _ _ _ j).2.2.2.2.2.1]
      have hdom4 : domLT (LT3.setBucket p []) := by
        refine domLT_of_eq ?_ hdom3
        intro j
        rw [(setBucket_unchanged _ _ _ j).2.2.2.2.2.2]
      have hbuc4 : bucketLT (LT3.setBucket p []) := by
        intro b v hv
        by_cases hbp : b = p
        · subst hbp
          by_cases hblen : b < LT3.nodes.length
          · rw [setBucket_bucket_self _ _ _ hblen] at hv
            cases hv
          · rw [lengauerTarjan.setBucket, nodeAt_modifyAt_oob _ _ _ hblen] at hv
            exact hbuc3 b v hv
        · rw [setBucket_bucket_ne _ _ _ _ hbp] at hv
          exact hbuc3 b v hv
      have hpar4 : parentInv (LT3.setBucket p []) := parentInv_same hg4 hpar3
      obtain ⟨f5, s5, b5, a5, il5⟩ := drainFold_spec _ _ lt' h hbs'
      obtain ⟨hanc', hlab', hdom'⟩ := il5 ⟨hanc4, hlab4, hdom4⟩
      have hgAll : sameGraphFields lt lt' :=
        sameGraphFields_trans f1 (sameGraphFields_trans hg2 (sameGraphFields_trans hg3
          (sameGraphFields_trans hg4 f5)))
      refine ⟨⟨hanc', hlab', hdom', bucketLT_of_eq b5 hbuc4, parentInv_same f5 hpar4, ?_⟩, hgAll⟩
      intro j hjk1 hjlen
      have hjk : j < k := by omega
      have hjne : j ≠ k := Nat.ne_of_lt hjk
      have hjlen0 : j < lt.nodes.length := by
        rw [← hgAll.1]
        exact hjlen
      obtain ⟨hsemi0, hanc0⟩ := hunp j (Nat.le_of_lt hjk) hjlen0
      constructor
      · rw [s5 j, (setBucket_unchanged _ _ _ j).2.2.2.1, hLT3',
          (setAncestor_unchanged _ _ _ j).2.2.2.1, hsemi2eq j, sn1 j hjne]
        exact hsemi0
      · have ha1 : (lt1.nodeAt j).ancestor = none := an1 j hanc0
        have ha2 : (LT2.nodeAt j).ancestor = none := by
          rw [hanc2eq j]
          exact ha1
        have ha3 : (LT3.nodeAt j).ancestor = none := by
          rw [hLT3', setAncestor_ancestor _ _ _ _ hjne]
          exact ha2
        have ha4 : ((LT3.setBucket p []).nodeAt j).ancestor = none := by
          rw [(setBucket_unchanged _ _ _ j).2.2.2.2.1]
          exact ha3
        exact a5 j ha4

theorem mainLoop_spec : ∀ (k : Nat) (lt lt' : lengauerTarjan),
    lengauerTarjan.mainLoop k lt = .ok lt' → k < lt.nodes.length → loopInv k lt →
    loopInv 0 lt' ∧ sameGraphFields lt lt' := by
  intro k
  induction k with
  | zero =>
    intro lt lt' h _ hinv
    injection h with h1
    subst h1
    exact ⟨hinv, sameGraphFields_refl _⟩
  | succ k ih =>
    intro lt lt' h hk hinv
    simp only [lengauerTarjan.mainLoop] at h
    rcases hi : lt.iter (k + 1) with e | lt2
    · rw [hi] at h
      exact Except.noConfusion h
    · rw [hi] at h
      obtain ⟨hinv2, hg⟩ := iter_spec hi (Nat.succ_le_succ (Nat.zero_le _)) hk hinv
      have hk2 : k < lt2.nodes.length := by
        rw [hg.1]
        omega
      obtain ⟨hfin, hg2⟩ := ih lt2 lt' h hk2 hinv2
      exact ⟨hfin, sameGraphFields_trans hg hg2⟩

theorem setDom_unchanged (lt : lengauerTarjan) (i : Nat) (d : Option Nat) :
    ∀ j, ((lt.setDom i d).nodeAt j).node = (lt.nodeAt j).node ∧
      ((lt.setDom i d).nodeAt j).parent = (lt.nodeAt j).parent ∧
      ((lt.setDom i d).nodeAt j).pred = (lt.nodeAt j).pred ∧
      ((lt.setDom i d).nodeAt j).semi = (lt.nodeAt j).semi ∧
      ((lt.setDom i d).nodeAt j).ancestor = (lt.nodeAt j).ancestor ∧
      ((lt.setDom i d).nodeAt j).label = (lt.nodeAt j).label ∧
      ((lt.setDom i d).nodeAt j).bucket = (lt.nodeAt j).bucket := by
  intro j
  rw [lengauerTarjan.setDom, nodeAt_modifyAt]
  split
  · next hc =>
    rw [hc.1]
    exact ⟨rfl, rfl, rfl, rfl, rfl, rfl, rfl⟩
  · exact ⟨rfl, rfl, rfl, rfl, rfl, rfl, rfl⟩

theorem step4one_spec {lt : lengauerTarjan} {i : Nat} {lt' : lengauerTarjan}
    (h : lt.step4one i = .ok lt') :
    sameGraphFields lt lt' ∧
    (∀ j, (lt'.nodeAt j).semi = (lt.nodeAt j).semi) ∧
    (∀ j, j ≠ i → (lt'.nodeAt j).dom = (lt.nodeAt j).dom) ∧
    (domLT lt → domLT lt') := by
  unfold lengauerTarjan.step4one at h
  rcases hd : (lt.nodeAt i).dom with _ | d
  · rw [hd] at h
    exact Except.noConfusion h
  · simp only [hd] at h
    split at h
    · next hcond =>
      injection h with h1
      have h1' := h1.symm
      subst h1'
      refine ⟨sameGraphFields_modifyAt _ _ _ (fun nd => ⟨rfl, rfl, rfl⟩),
        fun j => (setDom_unchanged _ _ _ j).2.2.2.1, ?_, ?_⟩
      · intro j hj
        rw [lengauerTarjan.setDom, nodeAt_modifyAt_ne _ _ _ _ hj]
      · intro hdm
        intro j dj hdj
        by_cases hji : j = i
        · subst hji
          by_cases hlen : j < lt.nodes.length
          · rw [lengauerTarjan.setDom, nodeAt_modifyAt_self _ _ _ hlen] at hdj
            have hdi : d < j := hdm j d hd
            have hdj' : (lt.nodeAt d).dom = some dj := hdj
            have : dj < d := hdm d dj hdj'
            omega
          · rw [lengauerTarjan.setDom, nodeAt_modifyAt_oob _ _ _ hlen] at hdj
            exact hdm j dj hdj
        · rw [lengauerTarjan.setDom, nodeAt_modifyAt_ne _ _ _ _ hji] at hdj
          exact hdm j dj hdj
    · next hcond =>
      injection h with h1
      subst h1
      exact ⟨sameGraphFields_refl _, fun _ => rfl, fun _ _ => rfl, fun hx => hx⟩

theorem step4Fold_spec : ∀ (is : List Nat) (lt lt' : lengauerTarjan),
    List.foldlM lengauerTarjan.step4one lt is = .ok lt' →
    sameGraphFields lt lt' ∧
    (∀ j, (lt'.nodeAt j).semi = (lt.nodeAt j).semi) ∧
    (domLT lt → domLT lt') := by
  intro is
  induction is with
  | nil =>
    intro lt lt' h
    injection h with h1
    subst h1
    exact ⟨sameGraphFields_refl _, fun _ => rfl, fun hx => hx⟩
  | cons i is ih =>
    intro lt lt' h
    rw [List.foldlM_cons] at h
    rcases hs : lt.step4one i with e | lt1
    · rw [hs] at h
      exact Except.noConfusion h
    · rw [hs] at h
      obtain ⟨f1, s1, d1, dl1⟩ := step4one_spec hs
      obtain ⟨f2, s2, dl2⟩ := ih lt1 lt' h
      exact ⟨sameGraphFields_trans f1 f2, fun j => (s2 j).trans (s1 j), fun hx => dl2 (dl1 hx)⟩

theorem step4_spec {lt lt' : lengauerTarjan} (h : lt.step4 = .ok lt') :
    sameGraphFields lt lt' ∧
    (∀ j, (lt'.nodeAt j).semi = (lt.nodeAt j).semi) ∧
    (domLT lt → domLT lt') := by
  unfold lengauerTarjan.step4 at h
  exact step4Fold_spec _ _ _ h

theorem loopInv_of_dfsInv {lt : lengauerTarjan} (hinv : dfsInv lt) (k : Nat) : loopInv k lt := by
  have hNode : ∀ j, j < lt.nodes.length ∨ lt.nodeAt j = dfltLTNode := by
    intro j
    by_cases hj : j < lt.nodes.length
    · exact Or.inl hj
    · exact Or.inr (nodeAt_oob _ _ (Nat.le_of_not_lt hj))
  refine ⟨?_, ?_, ?_, ?_, hinv.parent_pred, ?_⟩
  · intro j a haj
    rcases hNode j with hj | hj
    · rw [(hinv.fresh j hj).2.1] at haj
      exact Option.noConfusion haj
    · rw [hj] at haj
      exact Option.noConfusion haj
  · intro j
    rcases hNode j with hj | hj
    · rw [(hinv.fresh j hj).2.2.1]
    · rw [hj]
      exact Nat.zero_le _
  · intro j d hdj
    rcases hNode j with hj | hj
    · rw [(hinv.fresh j hj).2.2.2.1] at hdj
      exact Option.noConfusion hdj
    · rw [hj] at hdj
      exact Option.noConfusion hdj
  · intro b v hv
    rcases hNode b with hb | hb
    · rw [(hinv.fresh b hb).2.2.2.2] at hv
      cases hv
    · rw [hb] at hv
      cases hv
  · intro j hjk hjlen
    exact ⟨(hinv.fresh j hjlen).1, (hinv.fresh j hjlen).2.1⟩

theorem domPairsGo_spec : ∀ (is : List Nat) (lt : lengauerTarjan) (prs : List (Int × Int)),
    lt.domPairsGo is = .ok prs →
    (∀ i ∈ is, ∃ d, (lt.nodeAt i).dom = some d) ∧
    prs = is.map (fun i => ((lt.nodeAt i).node, (lt.nodeAt ((lt.nodeAt i).dom.getD 0)).node)) := by
  intro is
  induction is with
  | nil =>
    intro lt prs h
    injection h with h1
    subst h1
    exact ⟨fun i hi => absurd hi (List.not_mem_nil i), rfl⟩
  | cons i is ih =>
    intro lt prs h
    simp only [lengauerTarjan.domPairsGo] at h
    rcases hp : lt.domPair i with e | pr
    · rw [hp] at h
      exact Except.noConfusion h
    · simp only [hp] at h
      rcases hr : lt.domPairsGo is with e | prs'
      · rw [hr] at h
        exact Except.noConfusion h
      · simp only [hr] at h
        injection h with h1
        obtain ⟨hall, heq⟩ := ih lt prs' hr
        unfold lengauerTarjan.domPair at hp
        rcases hd : (lt.nodeAt i).dom with _ | d
        · rw [hd] at hp
          exact Except.noConfusion hp
        · rw [hd] at hp
          injection hp with hp1
          constructor
          · intro i' hi'
            rcases List.mem_cons.1 hi' with h2 | h2
            · subst h2
              exact ⟨d, hd⟩
            · exact hall i' h2
          · rw [← h1, heq, List.map_cons, ← hp1, hd]
            rfl

/-- Everything a successful `Dominators` run guarantees, phrased over
the DFS state `lt0` (for ranks and reachability) and the resolved state
`lt2` (for the final `dom` links). -/
theorem Dominators_final {root : Int} {g : DiGraph} {t : DominatorTree}
    (h : Dominators root g = .ok t) :
    ∃ lt0 lt2, ltOfDFS root g = .ok lt0 ∧
      dfsInv lt0 ∧ 0 < lt0.nodes.length ∧ (lt0.nodeAt 0).node = root ∧
      (∀ id, Reach g root id → ltMem lt0 id) ∧
      (∀ id, ltMem lt0 id → Reach g root id) ∧
      domLT lt2 ∧
      lt2.nodes.length = lt0.nodes.length ∧
      (∀ j, (lt2.nodeAt j).node = (lt0.nodeAt j).node) ∧
      (∀ i ∈ List.range' 1 (lt0.nodes.length - 1), ∃ d, (lt2.nodeAt i).dom = some d) ∧
      t = { root := root,
            dominatorOf := (List.range' 1 (lt0.nodes.length - 1)).map
              (fun i => ((lt2.nodeAt i).node, (lt2.nodeAt ((lt2.nodeAt i).dom.getD 0)).node)),
            dominatedBy := ((List.range' 1 (lt0.nodes.length - 1)).map
              (fun i => ((lt2.nodeAt i).node,
                (lt2.nodeAt ((lt2.nodeAt i).dom.getD 0)).node))).map
              (fun pr => (pr.2, pr.1)) } := by
  obtain ⟨lt0, lt1, lt2, prs, h0, h1, h2, h3, ht⟩ := Dominators_ok_decomp h
  obtain ⟨hInv, hlookr, hlen0, hnode0, hreach, hsound⟩ := ltOfDFS_facts h0
  have hkd : lt0.nodes.length - 1 < lt0.nodes.length := by omega
  obtain ⟨hloop, hg1⟩ := mainLoop_spec _ lt0 lt1 h1 hkd
    (loopInv_of_dfsInv hInv (lt0.nodes.length - 1))
  obtain ⟨hg2, hsemi2, hdml⟩ := step4_spec h2
  have hdom2 : domLT lt2 := hdml hloop.2.2.1
  have hlen2 : lt2.nodes.length = lt0.nodes.length := by
    rw [hg2.1, hg1.1]
  have hnode2 : ∀ j, (lt2.nodeAt j).node = (lt0.nodeAt j).node := by
    intro j
    rw [(hg2.2.2 j).1, (hg1.2.2 j).1]
  have h3' : lt2.domPairsGo (List.range' 1 (lt0.nodes.length - 1)) = .ok prs := by
    unfold lengauerTarjan.domPairs at h3
    rw [hlen2] at h3
    exact h3
  obtain ⟨hall, hprs⟩ := domPairsGo_spec _ lt2 prs h3'
  refine ⟨lt0, lt2, h0, hInv, hlen0, hnode0, hreach, hsound, hdom2, hlen2, hnode2, hall, ?_⟩
  rw [ht, hprs]

theorem domMap_lookup {lt2 : lengauerTarjan} {n : Nat}
    (hinj : ∀ i j, i < n → j < n → (lt2.nodeAt i).node = (lt2.nodeAt j).node → i = j)
    {b : Nat} (hb1 : 1 ≤ b) (hb2 : b < n) :
    lookupId ((lt2.nodeAt b).node)
      ((List.range' 1 (n - 1)).map
        (fun i => ((lt2.nodeAt i).node, (lt2.nodeAt ((lt2.nodeAt i).dom.getD 0)).node)))
      = some ((lt2.nodeAt ((lt2.nodeAt b).dom.getD 0)).node) := by
  have hbmem : b ∈ List.range' 1 (n - 1) := by
    rw [List.mem_range'_1]
    omega
  apply lookupId_eq_some
  · exact List.mem_map.2 ⟨b, hbmem, rfl⟩
  · intro b' hb'
    obtain ⟨j, hj, hjeq⟩ := List.mem_map.1 hb'
    rw [List.mem_range'_1] at hj
    have hj2 : j < n := by omega
    have hnd : (lt2.nodeAt j).node = (lt2.nodeAt b).node := congrArg Prod.fst hjeq
    have hjb : j = b := hinj j b hj2 hb2 hnd
    subst hjb
    exact (congrArg Prod.snd hjeq).symm

theorem domMap_lookup_root {lt2 : lengauerTarjan} {n : Nat}
    (hinj : ∀ i j, i < n → j < n → (lt2.nodeAt i).node = (lt2.nodeAt j).node → i = j)
    (hn : 0 < n) :
    lookupId ((lt2.nodeAt 0).node)
      ((List.range' 1 (n - 1)).map
        (fun i => ((lt2.nodeAt i).node, (lt2.nodeAt ((lt2.nodeAt i).dom.getD 0)).node)))
      = none := by
  apply lookupId_eq_none
  intro b hb
  obtain ⟨j, hj, hjeq⟩ := List.mem_map.1 hb
  rw [List.mem_range'_1] at hj
  have hj2 : j < n := by omega
  have hnd : (lt2.nodeAt j).node = (lt2.nodeAt 0).node := congrArg Prod.fst hjeq
  have hj0 : j = 0 := hinj j 0 hj2 hn hnd
  omega

theorem mem_swapped_filter {l : List (Int × Int)} {d m : Int} :
    m ∈ (((l.map (fun pr => (pr.2, pr.1))).filter (fun pr => pr.1 == d)).map Prod.snd) ↔
      (m, d) ∈ l := by
  induction l with
  | nil => simp
  | cons a l ih =>
    obtain ⟨x, y⟩ := a
    by_cases hy : y = d
    · subst hy
      simp only [List.map_cons, List.filter_cons]
      rw [if_pos (by simp)]
      simp only [List.map_cons, List.mem_cons, ih, Prod.ext_iff]
      simp
    · have hdy : ¬ d = y := fun h => hy h.symm
      simp only [List.map_cons, List.filter_cons]
      rw [if_neg (by simp [hy])]
      rw [ih]
      simp [List.mem_cons, Prod.ext_iff, hdy]

theorem length_filter_eq_one {l : List Nat} {p : Nat → Bool} {i0 : Nat} (hmem : i0 ∈ l)
    (hp : p i0 = true) (huniq : ∀ j ∈ l, p j = true → j = i0) (hnd : l.Nodup) :
    (l.filter p).length = 1 := by
  induction l with
  | nil => cases hmem
  | cons a l ih =>
    rw [List.nodup_cons] at hnd
    rcases ha : p a with _ | _
    · rw [List.filter_cons, if_neg (by simp [ha])]
      have hi0l : i0 ∈ l := by
        rcases List.mem_cons.1 hmem with h1 | h1
        · subst h1
          rw [hp] at ha
          cases ha
        · exact h1
      exact ih hi0l (fun j hj hpj => huniq j (List.mem_cons_of_mem _ hj) hpj) hnd.2
    · rw [List.filter_cons, if_pos (by simp [ha])]
      have hai0 : a = i0 := huniq a (List.mem_cons_self _ _) ha
      subst hai0
      have hfl : l.filter p = [] := by
        rw [List.filter_eq_nil_iff]
        intro j hj hpj
        have hja : j = a := huniq j (List.mem_cons_of_mem _ hj) (by simpa using hpj)
        subst hja
        exact absurd hj hnd.1
      rw [hfl]
      rfl

theorem final_inj {lt0 lt2 : lengauerTarjan} (hInv : dfsInv lt0)
    (hnode2 : ∀ j, (lt2.nodeAt j).node = (lt0.nodeAt j).node) :
    ∀ i j, i < lt0.nodes.length → j < lt0.nodes.length →
      (lt2.nodeAt i).node = (lt2.nodeAt j).node → i = j := by
  intro i j hi hj he
  rw [hnode2 i, hnode2 j] at he
  have h1 := hInv.node_idx i hi
  have h2 := hInv.node_idx j hj
  rw [he] at h1
  rw [h1] at h2
  exact Option.some.inj h2

/-- C2: for every node reachable from the root other than the root
itself, `DominatorOf` on a tree returned by `Dominators` yields exactly
one node, and that node's DFS preorder rank is strictly smaller than
the node's own rank. -/
theorem spec_C2 : ∀ (root : Int) (g : DiGraph) (t : DominatorTree),
    Dominators root g = .ok t →
    ∀ nid, Reach g root nid → nid ≠ root →
    ∃ d rn rd, t.DominatorOf nid = some d ∧
      rankIn g root nid = some rn ∧ rankIn g root d = some rd ∧ rd < rn := by
  intro root g t h nid hreach hne
  obtain ⟨lt0, lt2, h0, hInv, hlen0, hnode0, hrm, hms, hdom2, hlen2, hnode2, hall, ht⟩ :=
    Dominators_final h
  have hinj := final_inj hInv hnode2
  obtain ⟨b, hb⟩ := lookupId_exists_of_isSome (hrm nid hreach)
  obtain ⟨hblt, hbnode⟩ := hInv.idx_lt (nid, b) hb
  dsimp only at hblt hbnode
  have hb0 : b ≠ 0 := by
    intro hbe
    subst hbe
    exact hne (by rw [← hbnode, hnode0])
  have hb1 : 1 ≤ b := Nat.one_le_iff_ne_zero.2 hb0
  obtain ⟨d0, hd0⟩ := hall b (by rw [List.mem_range'_1]; omega)
  have hdval : (lt2.nodeAt b).dom.getD 0 = d0 := by
    rw [hd0]
    rfl
  have hdlt : d0 < b := hdom2 b d0 hd0
  refine ⟨(lt2.nodeAt ((lt2.nodeAt b).dom.getD 0)).node, b, (lt2.nodeAt b).dom.getD 0,
    ?_, ?_, ?_, ?_⟩
  · have hDO : t.DominatorOf nid = lookupId nid
        ((List.range' 1 (lt0.nodes.length - 1)).map
          (fun i => ((lt2.nodeAt i).node, (lt2.nodeAt ((lt2.nodeAt i).dom.getD 0)).node))) := by
      rw [ht]
      rfl
    rw [hDO]
    have hnb : (lt2.nodeAt b).node = nid := by
      rw [hnode2 b, hbnode]
    rw [← hnb]
    exact domMap_lookup hinj hb1 hblt
  · unfold rankIn
    simp only [h0]
    rw [← hbnode]
    exact hInv.node_idx b hblt
  · unfold rankIn
    simp only [h0]
    rw [hnode2 ((lt2.nodeAt b).dom.getD 0)]
    exact hInv.node_idx _ (by rw [hdval]; omega)
  · rw [hdval]
    exact hdlt

/-- C3: the root is never a key of the `dominatorOf` map, so
`DominatorOf(root)` is absent; the root can still appear as a value of
`dominatorOf` and as a key of `dominatedBy` (the chain graph shows
both). -/
theorem spec_C3 :
    (∀ (root : Int) (g : DiGraph) (t : DominatorTree), Dominators root g = .ok t →
      t.DominatorOf root = none) ∧
    (Dominators 0 chainG = .ok chainT ∧ chainT.DominatorOf 0 = none ∧
      chainT.DominatedBy 0 = [1] ∧ (1, 0) ∈ chainT.dominatorOf) := by
  constructor
  · intro root g t h
    obtain ⟨lt0, lt2, h0, hInv, hlen0, hnode0, hrm, hms, hdom2, hlen2, hnode2, hall, ht⟩ :=
      Dominators_final h
    have hinj := final_inj hInv hnode2
    have hDO : t.DominatorOf root = lookupId root
        ((List.range' 1 (lt0.nodes.length - 1)).map
          (fun i => ((lt2.nodeAt i).node, (lt2.nodeAt ((lt2.nodeAt i).dom.getD 0)).node))) := by
      rw [ht]
      rfl
    rw [hDO]
    have hr : root = (lt2.nodeAt 0).node := by
      rw [hnode2 0, hnode0]
    rw [hr]
    exact domMap_lookup_root hinj hlen0
  · exact ⟨by rfl, by rfl, by rfl, by decide⟩

/-- C4: every key and value of both output maps is a node reachable
from the root; unreachable nodes never appear. -/
theorem spec_C4 : ∀ (root : Int) (g : DiGraph) (t : DominatorTree),
    Dominators root g = .ok t →
    (∀ pr ∈ t.dominatorOf, Reach g root pr.1 ∧ Reach g root pr.2) ∧
    (∀ pr ∈ t.dominatedBy, Reach g root pr.1 ∧ Reach g root pr.2) := by
  intro root g t h
  obtain ⟨lt0, lt2, h0, hInv, hlen0, hnode0, hrm, hms, hdom2, hlen2, hnode2, hall, ht⟩ :=
    Dominators_final h
  have hreachIdx : ∀ i, i < lt0.nodes.length → Reach g root ((lt2.nodeAt i).node) := by
    intro i hi
    rw [hnode2 i]
    apply hms
    unfold ltMem
    rw [hInv.node_idx i hi]
    rfl
  have hmain : ∀ pr ∈ (List.range' 1 (lt0.nodes.length - 1)).map
      (fun i => ((lt2.nodeAt i).node, (lt2.nodeAt ((lt2.nodeAt i).dom.getD 0)).node)),
      Reach g root pr.1 ∧ Reach g root pr.2 := by
    intro pr hpr
    obtain ⟨i, hi, heq⟩ := List.mem_map.1 hpr
    rw [List.mem_range'_1] at hi
    rw [← heq]
    constructor
    · exact hreachIdx i (by omega)
    · obtain ⟨d0, hd0⟩ := hall i (by rw [List.mem_range'_1]; omega)
      have hdval : (lt2.nodeAt i).dom.getD 0 = d0 := by
        rw [hd0]
        rfl
      have hdlt : d0 < i := hdom2 i d0 hd0
      exact hreachIdx _ (by rw [hdval]; omega)
  have hDOeq : t.dominatorOf = (List.range' 1 (lt0.nodes.length - 1)).map
      (fun i => ((lt2.nodeAt i).node, (lt2.nodeAt ((lt2.nodeAt i).dom.getD 0)).node)) := by
    rw [ht]
  have hDBeq : t.dominatedBy = ((List.range' 1 (lt0.nodes.length - 1)).map
      (fun i => ((lt2.nodeAt i).node, (lt2.nodeAt ((lt2.nodeAt i).dom.getD 0)).node))).map
      (fun pr => (pr.2, pr.1)) := by
    rw [ht]
  constructor
  · rw [hDOeq]
    exact hmain
  · rw [hDBeq]
    intro pr hpr
    obtain ⟨pr0, hpr0, heq⟩ := List.mem_map.1 hpr
    rw [← heq]
    exact ⟨(hmain pr0 hpr0).2, (hmain pr0 hpr0).1⟩

/-- C4 witness at a concrete input: the diamond graph. -/
theorem spec_C4_witness :
    (∀ pr ∈ diamondT.dominatorOf, Reach diamondG 0 pr.1 ∧ Reach diamondG 0 pr.2) ∧
    (∀ pr ∈ diamondT.dominatedBy, Reach diamondG 0 pr.1 ∧ Reach diamondG 0 pr.2) :=
  spec_C4 0 diamondG diamondT (by rfl)

/-- C2 witness at a concrete input: node D = 4 of the diamond graph. -/
theorem spec_C2_witness : ∃ d rn rd, diamondT.DominatorOf 4 = some d ∧
    rankIn diamondG 0 4 = some rn ∧ rankIn diamondG 0 d = some rd ∧ rd < rn :=
  spec_C2 0 diamondG diamondT (by rfl) 4
    (Reach.tail (Reach.tail (Reach.tail (Reach.refl 0)
      (show (1 : Int) ∈ diamondG.succ 0 by decide))
      (show (3 : Int) ∈ diamondG.succ 1 by decide))
      (show (4 : Int) ∈ diamondG.succ 3 by decide))
    (by decide)

/-- C6: on the diamond-with-tail graph (root→A, root→B, A→C, B→C,
C→D with root,A,B,C,D = 0,1,2,3,4), `Dominators` returns
DominatorOf(A) = DominatorOf(B) = DominatorOf(C) = root and
DominatorOf(D) = C. -/
theorem spec_C6 : Dominators 0 diamondG = .ok diamondT ∧
    diamondT.DominatorOf 1 = some 0 ∧ diamondT.DominatorOf 2 = some 0 ∧
    diamondT.DominatorOf 3 = some 0 ∧ diamondT.DominatorOf 4 = some 3 :=
  ⟨by rfl, by rfl, by rfl, by rfl, by rfl⟩

/-- C7: two runs of `Dominators` on the same root and graph yield
dominator maps with identical key-to-value pairs and `DominatedBy`
lists with the same members (the computation is a pure function of its
input). -/
theorem spec_C7 : ∀ (root : Int) (g : DiGraph) (t1 t2 : DominatorTree),
    Dominators root g = .ok t1 → Dominators root g = .ok t2 →
    (∀ n, t1.DominatorOf n = t2.DominatorOf n) ∧
    (∀ n m, m ∈ t1.DominatedBy n ↔ m ∈ t2.DominatedBy n) := by
  intro root g t1 t2 h1 h2
  rw [h1] at h2
  injection h2 with h3
  subst h3
  exact ⟨fun _ => rfl, fun _ _ => Iff.rfl⟩

/-- C7 witness at a concrete input: the chain graph. -/
theorem spec_C7_witness :
    (∀ n, chainT.DominatorOf n = chainT.DominatorOf n) ∧
    (∀ n m, m ∈ chainT.DominatedBy n ↔ m ∈ chainT.DominatedBy n) :=
  spec_C7 0 chainG chainT chainT (by rfl) (by rfl)

/-- C8: the fatal branch of the traversal is unreachable under the
(pure, hence consistent) graph accessor: a `dfs` call either succeeds
or runs out of fuel (an embedding artefact); it never reaches the
`panic("path: unintialized node")` branch, because the recursive call
always registers the successor in the index before the lookup. -/
theorem spec_C8 : ∀ (g : DiGraph) (f : Nat) (v : Int) (lt : lengauerTarjan),
    (∃ lt', lengauerTarjan.dfs g f v lt = .ok lt') ∨
    lengauerTarjan.dfs g f v lt = .error ltFuelMsg :=
  fun g f v lt => (dfs_no_panic_ladder g f).1 v lt

/-- C9: the two maps of a returned tree are mutually inverse (a node
is in the `DominatedBy` list of `d` exactly when its `DominatorOf` is
`d`), and every reachable non-root node occurs in exactly one
`DominatedBy` list, exactly once. -/
theorem spec_C9 : ∀ (root : Int) (g : DiGraph) (t : DominatorTree),
    Dominators root g = .ok t →
    (∀ nid d, nid ∈ t.DominatedBy d ↔ t.DominatorOf nid = some d) ∧
    (∀ nid, Reach g root nid → nid ≠ root →
      (t.dominatedBy.filter (fun pr => pr.2 == nid)).length = 1) := by
  intro root g t h
  obtain ⟨lt0, lt2, h0, hInv, hlen0, hnode0, hrm, hms, hdom2, hlen2, hnode2, hall, ht⟩ :=
    Dominators_final h
  have hinj := final_inj hInv hnode2
  constructor
  · intro nid d
    have hDBy : t.DominatedBy d = ((((List.range' 1 (lt0.nodes.length - 1)).map
        (fun i => ((lt2.nodeAt i).node, (lt2.nodeAt ((lt2.nodeAt i).dom.getD 0)).node))).map
        (fun pr => (pr.2, pr.1))).filter (fun pr => pr.1 == d)).map Prod.snd := by
      rw [ht]
      rfl
    have hDOf : t.DominatorOf nid = lookupId nid ((List.range' 1 (lt0.nodes.length - 1)).map
        (fun i => ((lt2.nodeAt i).node, (lt2.nodeAt ((lt2.nodeAt i).dom.getD 0)).node))) := by
      rw [ht]
      rfl
    rw [hDBy, mem_swapped_filter, hDOf]
    constructor
    · intro hmem
      obtain ⟨i, hi, heq⟩ := List.mem_map.1 hmem
      rw [List.mem_range'_1] at hi
      have hfst : (lt2.nodeAt i).node = nid := congrArg Prod.fst heq
      have hsnd : (lt2.nodeAt ((lt2.nodeAt i).dom.getD 0)).node = d := congrArg Prod.snd heq
      have hlk := domMap_lookup hinj (by omega) (show i < lt0.nodes.length by omega)
      rw [hfst, hsnd] at hlk
      exact hlk
    · intro hlk
      exact lookupId_mem hlk
  · intro nid hr hne
    have hDB : t.dominatedBy = ((List.range' 1 (lt0.nodes.length - 1)).map
        (fun i => ((lt2.nodeAt i).node, (lt2.nodeAt ((lt2.nodeAt i).dom.getD 0)).node))).map
        (fun pr => (pr.2, pr.1)) := by
      rw [ht]
    rw [hDB, List.filter_map, List.length_map, List.filter_map, List.length_map]
    obtain ⟨b, hb⟩ := lookupId_exists_of_isSome (hrm nid hr)
    obtain ⟨hblt, hbnode⟩ := hInv.idx_lt (nid, b) hb
    dsimp only at hblt hbnode
    have hb0 : b ≠ 0 := by
      intro hbe
      subst hbe
      exact hne (by rw [← hbnode, hnode0])
    refine length_filter_eq_one
      (show b ∈ List.range' 1 (lt0.nodes.length - 1) by rw [List.mem_range'_1]; omega)
      ?_ ?_ ?_
    · show ((lt2.nodeAt b).node == nid) = true
      rw [beq_iff_eq, hnode2 b, hbnode]
    · intro j hj hpj
      rw [List.mem_range'_1] at hj
      have hpj' : (lt2.nodeAt j).node = nid := by
        have hpj2 : ((lt2.nodeAt j).node == nid) = true := hpj
        rw [beq_iff_eq] at hpj2
        exact hpj2
      refine hinj j b (by omega) hblt ?_
      rw [hpj', hnode2 b, hbnode]
    · exact List.nodup_range' _ _ _ (by omega)

/-- C9 witness at a concrete input: the chain graph and its node 2. -/
theorem spec_C9_witness :
    (∀ nid d, nid ∈ chainT.DominatedBy d ↔ chainT.DominatorOf nid = some d) ∧
    (∀ nid, Reach chainG 0 nid → nid ≠ 0 →
      (chainT.dominatedBy.filter (fun pr => pr.2 == nid)).length = 1) :=
  spec_C9 0 chainG chainT (by rfl)

set_option maxHeartbeats 2000000 in
/-- Supporting evidence for the immediate-dominator claim: on the
diamond graph the tree returned by `Dominators` agrees with the
brute-force immediate dominator computed from the specification's
path-based definition. -/
theorem diamond_matches_brute : ∀ pr ∈ [((1 : Int), (0 : Int)), (2, 0), (3, 0), (4, 3)],
    diamondT.DominatorOf pr.1 = some pr.2 ∧ isIdom diamondG 0 pr.2 pr.1 = true := by
  decide

set_option maxHeartbeats 2000000 in
/-- Supporting evidence for the immediate-dominator claim on the chain
graph. -/
theorem chain_matches_brute : ∀ pr ∈ [((1 : Int), (0 : Int)), (2, 1), (3, 2)],
    chainT.DominatorOf pr.1 = some pr.2 ∧ isIdom chainG 0 pr.2 pr.1 = true := by
  decide

/-- Supporting evidence for the duplicate-edge claim: the dominator map
computed on a graph with parallel edges equals the one computed after
removing the duplicate successor entries. -/
theorem dup_edges_same_dominatorOf :
    (Dominators 0 dupG).map DominatorTree.dominatorOf = .ok [(1, 0), (3, 0), (2, 0)] ∧
    (Dominators 0 dupGdedup).map DominatorTree.dominatorOf = .ok [(1, 0), (3, 0), (2, 0)] :=
  ⟨by rfl, by rfl⟩

/-- Supporting evidence for the step-4 claim: processing node `i`, the
forward pass replaces `dom` by `dom.dom` exactly when the recorded
`dom`'s identity differs from that of `nodes[semi]`. -/
theorem step4one_chases {lt : lengauerTarjan} {i d : Nat} {lt' : lengauerTarjan}
    (hd : (lt.nodeAt i).dom = some d) (hi : i < lt.nodes.length)
    (h : lt.step4one i = .ok lt') :
    (lt'.nodeAt i).dom = if (lt.nodeAt d).node ≠ (lt.nodeAt (lt.nodeAt i).semi).node
      then (lt.nodeAt d).dom else some d := by
  unfold lengauerTarjan.step4one at h
  simp only [hd] at h
  split at h
  · next hcond =>
    injection h with h1
    rw [← h1, lengauerTarjan.setDom, nodeAt_modifyAt_self _ _ _ hi, if_pos hcond]
  · next hcond =>
    injection h with h1
    rw [← h1, if_neg hcond]
    exact hd
